import Mathlib

/-!
Shallow embedding of `cdblib.py` (python-pure-cdb): DJB constant databases.

Python byte strings are modelled as `List Nat` (one `Nat` per byte, the value
`ord(c)`); the writer's sink and the reader's byte sequence are likewise
`List Nat`.  Machine arithmetic is `Nat` with explicit masking, mirroring the
source's `& 0xffffffff`.  `struct.pack`/`struct.unpack` of `<LL>`-style pairs
become `encodeLE`/`decodeLE`; `unpack` of a slice of the wrong size raises
`struct.error`, modelled by the `Except` error `structError`.  Fallible
operations (a reader over a too-short sequence, operations on a finalized
writer) return `Except`/`Option`.
-/

set_option maxRecDepth 8000

namespace Cdblib

/-- A Python 2 byte string: the list of its byte values. -/
abbrev Bytes := List Nat

/-- `py_djb_hash` from the source: DJB's hash over 32-bit wrapping arithmetic,
`h = 5381`, then per byte `h = (((h << 5) + h) ^ c) & 0xffffffff`. -/
def py_djb_hash (s : Bytes) : Nat :=
  s.foldl (fun h c => (((h <<< 5) + h) ^^^ c) &&& 0xffffffff) 5381

/-- Little-endian encoding of `n` on `w` bytes (the payload of
`struct.pack`); values are reduced mod `256^w`, and every theorem that uses
the encoding carries a hypothesis keeping the encoded value in range, which
is where `struct.pack` would raise in Python. -/
def encodeLE : Nat → Nat → Bytes
  | 0, _ => []
  | w + 1, n => n % 256 :: encodeLE w (n / 256)

/-- Little-endian decoding of a byte list (the payload of `struct.unpack`). -/
def decodeLE (bs : Bytes) : Nat :=
  bs.foldr (fun b acc => b + 256 * acc) 0

/-- Python slicing `data[pos:pos+len]` for nonnegative indices. -/
def slice (data : Bytes) (pos len : Nat) : Bytes :=
  (data.drop pos).take len

/-- Python `xrange(start, stop, step)` as a list (for positive `step`). -/
def xrangeL (start stop step : Nat) : List Nat :=
  List.range' start ((stop - start + step - 1) / step) step

/-- Python `min` over a sequence of naturals (the source applies it to the
256-entry index, which is never empty; the empty case is arbitrary). -/
def pyMin : List Nat → Nat
  | [] => 0
  | x :: xs => xs.foldl Nat.min x

/-- Errors a reader operation can raise: the explicit
`IOError('CDB too small')` check, or `struct.error` from unpacking a slice
of the wrong size. -/
inductive ReadErr where
  | cdbTooSmall : ReadErr
  | structError : ReadErr
deriving DecidableEq, Repr

/-- Sequential effectful map, as a Python list comprehension: the first
raised error propagates. -/
def mapExcept (f : α → Except ReadErr β) : List α → Except ReadErr (List β)
  | [] => .ok []
  | x :: xs =>
    match f x with
    | .error e => .error e
    | .ok y =>
      match mapExcept f xs with
      | .error e => .error e
      | .ok ys => .ok (y :: ys)

/-- The two width variants: `Reader` (pairs of 32-bit words) and `Reader64`
(pairs of 64-bit words). -/
inductive Variant where
  | v32 : Variant
  | v64 : Variant
deriving DecidableEq, Repr

/-- The `pair_size` class attribute: 8 bytes for the 32-bit variant, 16 for
the 64-bit one. -/
def pairSize : Variant → Nat
  | .v32 => 8
  | .v64 => 16

/-- `read_2_le4` / `read_2_le8`: unpack an exact-size slice into two
little-endian words; any other length is a `struct.error`. -/
def readPairE (ps : Nat) (bs : Bytes) : Except ReadErr (Nat × Nat) :=
  if bs.length = ps then
    .ok (decodeLE (bs.take (ps / 2)), decodeLE (bs.drop (ps / 2)))
  else .error .structError

/-- The state of a constructed `Reader`: the fields computed by
`Reader.__init__`. -/
structure Reader where
  data : Bytes
  hashfn : Bytes → Nat
  variant : Variant
  index : List (Nat × Nat)
  table_start : Nat
  length : Nat

/-- The instance `pair_size` of a reader. -/
def Reader.pair_size (r : Reader) : Nat := pairSize r.variant

/-- `Reader.__init__` (and, with `v = .v64`, `Reader64.__init__`): reject
sequences shorter than the literal `2048`, then parse the 256 index pairs,
the table start and the record count.  The length check is inherited
verbatim by `Reader64`. -/
def mkReaderAux (v : Variant) (data : Bytes) (hashfn : Bytes → Nat) :
    Except ReadErr Reader :=
  let ps := pairSize v
  if data.length < 2048 then .error .cdbTooSmall
  else
    match mapExcept (fun off => readPairE ps (slice data off ps))
        (xrangeL 0 (256 * ps) ps) with
    | .error e => .error e
    | .ok index =>
      .ok { data := data, hashfn := hashfn, variant := v, index := index,
            table_start := pyMin (index.map Prod.fst),
            length := (index.map (fun p => p.2 >>> 1)).sum }

/-- `Reader(data)` with the default (canonical) hash. -/
def mkReader (data : Bytes) : Except ReadErr Reader :=
  mkReaderAux .v32 data py_djb_hash

/-- `Reader64(data)` with the default (canonical) hash. -/
def mkReader64 (data : Bytes) : Except ReadErr Reader :=
  mkReaderAux .v64 data py_djb_hash

/-- The probe loop of `Reader.gets`, over the list of slot byte positions:
read each slot pair; a slot hash of `0` terminates; a slot hash equal to the
key's hash reads the record header at the recorded offset, compares the
stored key, and on a match yields the value slice. -/
def getsLoop (data : Bytes) (ps h : Nat) (key : Bytes) :
    List Nat → Except ReadErr (List Bytes)
  | [] => .ok []
  | pos :: rest =>
    match readPairE ps (slice data pos ps) with
    | .error e => .error e
    | .ok (rec_h, rec_pos) =>
      if rec_h = 0 then .ok []
      else if rec_h = h then
        match readPairE ps (slice data rec_pos ps) with
        | .error e => .error e
        | .ok (klen, dlen) =>
          if slice data (rec_pos + ps) klen = key then
            match getsLoop data ps h key rest with
            | .error e => .error e
            | .ok vs => .ok (slice data (rec_pos + ps + klen) dlen :: vs)
          else getsLoop data ps h key rest
      else getsLoop data ps h key rest

/-- `Reader.gets`: hash the key, select the bucket, and walk the probe ring
(the two `xrange` segments of the source, home slot first). -/
def Reader.gets (r : Reader) (key : Bytes) : Except ReadErr (List Bytes) :=
  let ps := r.pair_size
  let h := r.hashfn key &&& 0xffffffff
  let sn := r.index.getD (h &&& 0xff) (0, 0)
  if sn.2 = 0 then .ok []
  else
    getsLoop r.data ps h key
      (xrangeL (sn.1 + ((h >>> 8) % sn.2) * ps) (sn.1 + sn.2 * ps) ps ++
       xrangeL sn.1 (sn.1 + ((h >>> 8) % sn.2) * ps) ps)

/-- `Reader.get`: the first value yielded for the key, else the default. -/
def Reader.get (r : Reader) (key : Bytes) (default : Option Bytes := none) :
    Except ReadErr (Option Bytes) :=
  match r.gets key with
  | .error e => .error e
  | .ok [] => .ok default
  | .ok (v :: _) => .ok (some v)

/-- The loop of `Reader.iteritems`: from `pos`, while `pos < table_start`,
read a `(klen, dlen)` header and yield the key and value slices. -/
def iterItemsFrom (data : Bytes) (v : Variant) (ts pos : Nat) :
    Except ReadErr (List (Bytes × Bytes)) :=
  let ps := pairSize v
  if _hlt : pos < ts then
    match readPairE ps (slice data pos ps) with
    | .error e => .error e
    | .ok (klen, dlen) =>
      match iterItemsFrom data v ts (pos + ps + klen + dlen) with
      | .error e => .error e
      | .ok rest =>
        .ok ((slice data (pos + ps) klen,
              slice data (pos + ps + klen) dlen) :: rest)
  else .ok []
termination_by ts - pos
decreasing_by cases v <;> simp [pairSize] <;> omega

/-- `Reader.iteritems`, fully materialized (= `Reader.items`). -/
def Reader.iteritems (r : Reader) : Except ReadErr (List (Bytes × Bytes)) :=
  iterItemsFrom r.data r.variant r.table_start (r.pair_size * 256)

/-- `write_2_le4`: pack two 32-bit little-endian words. -/
def writePair (a b : Nat) : Bytes :=
  encodeLE 4 a ++ encodeLE 4 b

/-- Pack a list of pairs back to back (the slot-table and index write
loops of `Writer.finalize`). -/
def writeSlots (ps : List (Nat × Nat)) : Bytes :=
  (ps.map fun p => writePair p.1 p.2).flatten

/-- The state of a `Writer`: the sink contents (`none` once `finalize` has
released the reference), the hash function, and the 256 in-memory bucket
lists `_unordered` (represented as a function; only indices `0..255` are
ever touched). -/
structure Writer where
  fp : Option Bytes
  hashfn : Bytes → Nat
  unordered : Nat → List (Nat × Nat)

/-- `Writer(fp)` over a fresh sink: write `256 * 8` zero bytes and start
with 256 empty bucket lists. -/
def Writer.init : Writer :=
  { fp := some (List.replicate (256 * 8) 0),
    hashfn := py_djb_hash,
    unordered := fun _ => [] }

/-- `Writer.put`: append the record header, key and value at the current
offset, and append `(h, pos)` to bucket `h & 0xff`.  On a finalized writer
(`fp` released) the attribute access fails, hence `none`. -/
def Writer.put (w : Writer) (key : Bytes) (value : Bytes := []) :
    Option Writer :=
  match w.fp with
  | none => none
  | some data =>
    let pos := data.length
    let data2 := data ++ writePair key.length value.length ++ key ++ value
    let h := w.hashfn key &&& 0xffffffff
    some { w with
      fp := some data2,
      unordered := fun i =>
        if i = (h &&& 0xff) then w.unordered i ++ [(h, pos)]
        else w.unordered i }

/-- One placement of `Writer.finalize`: starting from the record's home slot
`(h >> 8) % len`, scan forward (wrapping to slot 0) for the first slot whose
stored hash is `0` and put the pair there; if no slot qualifies the pair is
silently dropped, as in the source's fallen-through `for`. -/
def placeRecord (ordered : List (Nat × Nat)) (pair : Nat × Nat) :
    List (Nat × Nat) :=
  let len := ordered.length
  let whereI := (pair.1 >>> 8) % len
  match (List.range' whereI (len - whereI) ++ List.range whereI).find?
      (fun i => (ordered.getD i (0, 0)).1 == 0) with
  | some i => ordered.set i pair
  | none => ordered

/-- The slot table `Writer.finalize` builds for one bucket: `2n` empty
slots, then the bucket's records placed in insertion order. -/
def placeAll (tbl : List (Nat × Nat)) : List (Nat × Nat) :=
  tbl.foldl placeRecord (List.replicate (tbl.length * 2) (0, 0))

/-- One iteration of the `finalize` loop over buckets: record the index
entry `(tell, 2n)` and append the bucket's slot table to the sink. -/
def finalizeStep (bk : Nat → List (Nat × Nat))
    (acc : List (Nat × Nat) × Bytes) (i : Nat) : List (Nat × Nat) × Bytes :=
  let tbl := bk i
  (acc.1 ++ [(acc.2.length, tbl.length * 2)], acc.2 ++ writeSlots (placeAll tbl))

/-- The `finalize` loop over all 256 buckets: the final index list and the
sink contents after the slot tables are appended. -/
def finalizeCore (bk : Nat → List (Nat × Nat)) (data : Bytes) :
    List (Nat × Nat) × Bytes :=
  (List.range 256).foldl (finalizeStep bk) ([], data)

/-- `Writer.finalize`: write the slot tables, seek to 0 and overwrite the
first 2048 bytes with the index, and release the sink reference (so a second
`finalize` fails, returning `none`).  Returns the final file contents. -/
def Writer.finalize (w : Writer) : Option (Bytes × Writer) :=
  match w.fp with
  | none => none
  | some data =>
    let core := finalizeCore w.unordered data
    some (writeSlots core.1 ++ core.2.drop 2048, { w with fp := none })

/-- A sequence of `put` calls. -/
def putAll : Writer → List (Bytes × Bytes) → Option Writer
  | w, [] => some w
  | w, kv :: rest =>
    match w.put kv.1 kv.2 with
    | none => none
    | some w2 => putAll w2 rest

/-- Build a database: a fresh writer, the given `put` calls, one
`finalize`; the resulting byte sequence. -/
def buildCDB (kvs : List (Bytes × Bytes)) : Option Bytes :=
  match putAll Writer.init kvs with
  | none => none
  | some w => (Writer.finalize w).map Prod.fst

/-- A dynamically typed Python value, as far as `Writer.put`'s `assert`
can distinguish: a byte string, or something that is not one. -/
inductive PyObj where
  | pystr : Bytes → PyObj
  | pyint : Int → PyObj
  | pynone : PyObj
deriving DecidableEq, Repr

/-- `type(x) is str`. -/
def PyObj.isStr : PyObj → Bool
  | .pystr _ => true
  | _ => false

/-- Errors `Writer.put` can raise: the `assert type(key) is str and
type(value) is str` failing, or the attribute access on a released `fp`. -/
inductive PutErr where
  | assertionError : PutErr
  | attributeError : PutErr
deriving DecidableEq, Repr

/-- `Writer.put` on dynamically typed arguments: the `assert` fires first,
before anything is written; on byte-string arguments it behaves as
`Writer.put`. -/
def Writer.putObj (w : Writer) (key value : PyObj) : Except PutErr Writer :=
  match key, value with
  | .pystr k, .pystr v =>
    match w.put k v with
    | some w2 => .ok w2
    | none => .error .attributeError
  | _, _ => .error .assertionError

/-! ### Basic arithmetic and encoding lemmas -/

theorem mask32_eq_mod (x : Nat) : x &&& 0xffffffff = x % 4294967296 :=
  Nat.and_pow_two_sub_one_eq_mod x 32

theorem mask8_eq_mod (x : Nat) : x &&& 0xff = x % 256 :=
  Nat.and_pow_two_sub_one_eq_mod x 8

theorem mask32_lt (x : Nat) : x &&& 0xffffffff < 4294967296 := by
  rw [mask32_eq_mod]; exact Nat.mod_lt _ (by norm_num)

theorem mask8_lt (x : Nat) : x &&& 0xff < 256 := by
  rw [mask8_eq_mod]; exact Nat.mod_lt _ (by norm_num)

theorem py_djb_hash_lt (s : Bytes) : py_djb_hash s < 4294967296 := by
  rcases List.eq_nil_or_concat s with h | ⟨l, c, h⟩ <;> subst h
  · decide
  · rw [py_djb_hash, List.concat_eq_append, List.foldl_append]
    exact mask32_lt _

theorem py_djb_hash_mask (s : Bytes) :
    py_djb_hash s &&& 0xffffffff = py_djb_hash s := by
  rw [mask32_eq_mod]; exact Nat.mod_eq_of_lt (py_djb_hash_lt s)

theorem decodeLE_nil : decodeLE [] = 0 := rfl

theorem decodeLE_cons (b : Nat) (bs : Bytes) :
    decodeLE (b :: bs) = b + 256 * decodeLE bs := rfl

theorem encodeLE_length (w n : Nat) : (encodeLE w n).length = w := by
  induction w generalizing n with
  | zero => simp [encodeLE]
  | succ w ih => simp [encodeLE, ih]

theorem decodeLE_encodeLE (w n : Nat) (h : n < 256 ^ w) :
    decodeLE (encodeLE w n) = n := by
  induction w generalizing n with
  | zero =>
    simp [pow_zero] at h
    simp [encodeLE, decodeLE, h]
  | succ w ih =>
    have hdiv : n / 256 < 256 ^ w := by
      rw [Nat.div_lt_iff_lt_mul (by norm_num)]
      calc n < 256 ^ (w + 1) := h
        _ = 256 ^ w * 256 := by ring
    rw [encodeLE, decodeLE_cons, ih _ hdiv, Nat.mod_add_div]

theorem writePair_length (a b : Nat) : (writePair a b).length = 8 := by
  simp [writePair, encodeLE_length]

theorem readPairE_writePair (a b : Nat)
    (ha : a < 4294967296) (hb : b < 4294967296) :
    readPairE 8 (writePair a b) = .ok (a, b) := by
  have h4 : (encodeLE 4 a).length = 4 := encodeLE_length 4 a
  rw [readPairE, if_pos (writePair_length a b)]
  rw [writePair, show (8 : Nat) / 2 = 4 from rfl,
      List.take_left' h4, List.drop_left' h4]
  rw [decodeLE_encodeLE 4 a (by norm_num at ha ⊢; exact ha),
      decodeLE_encodeLE 4 b (by norm_num at hb ⊢; exact hb)]

theorem slice_exact (X Y Z : Bytes) :
    slice (X ++ (Y ++ Z)) X.length Y.length = Y := by
  rw [slice, List.drop_left, List.take_left]

theorem slice_at (X Y Z : Bytes) (p n : Nat)
    (hp : p = X.length) (hn : n = Y.length) :
    slice (X ++ Y ++ Z) p n = Y := by
  subst hp; subst hn
  rw [List.append_assoc]
  exact slice_exact X Y Z

theorem slice_length (data : Bytes) (p n : Nat) :
    (slice data p n).length = min n (data.length - p) := by
  simp [slice]

theorem xrangeL_eq (a n k : Nat) (hk : 0 < k) :
    xrangeL a (a + k * n) k = List.range' a n k := by
  rw [xrangeL]
  congr 1
  rw [Nat.add_sub_cancel_left]
  have h1 : k * n + k - 1 = k * n + (k - 1) := by omega
  rw [h1, Nat.mul_add_div hk, Nat.div_eq_of_lt (by omega), Nat.add_zero]

theorem range'_eq_map (a n k : Nat) :
    List.range' a n k = (List.range n).map (fun j => a + k * j) := by
  induction n generalizing a with
  | zero => simp
  | succ n ih =>
    rw [List.range'_succ, ih, List.range_succ_eq_map, List.map_cons,
        List.map_map]
    simp only [Nat.mul_zero, Nat.add_zero]
    refine congrArg (List.cons a) ?_
    apply List.map_congr_left
    intro j _
    simp only [Function.comp_apply, Nat.succ_eq_add_one, Nat.mul_succ,
      Nat.mul_add, Nat.mul_one]
    omega

theorem writeSlots_nil : writeSlots [] = [] := rfl

theorem writeSlots_cons (p : Nat × Nat) (ps : List (Nat × Nat)) :
    writeSlots (p :: ps) = writePair p.1 p.2 ++ writeSlots ps := by
  simp [writeSlots]

theorem writeSlots_append (l1 l2 : List (Nat × Nat)) :
    writeSlots (l1 ++ l2) = writeSlots l1 ++ writeSlots l2 := by
  simp [writeSlots]

theorem writeSlots_length (ps : List (Nat × Nat)) :
    (writeSlots ps).length = 8 * ps.length := by
  induction ps with
  | nil => rfl
  | cons p ps ih =>
    rw [writeSlots_cons, List.length_append, writePair_length, ih,
        List.length_cons]
    ring

theorem writeSlots_decomp (ps : List (Nat × Nat)) (t : Nat) (ht : t < ps.length) :
    writeSlots ps =
      writeSlots (ps.take t) ++ writePair (ps.getD t (0, 0)).1 (ps.getD t (0, 0)).2
        ++ writeSlots (ps.drop (t + 1)) ∧
    (writeSlots (ps.take t)).length = 8 * t := by
  constructor
  · conv_lhs => rw [show ps = ps.take t ++ ps.getD t (0, 0) :: ps.drop (t + 1) by
      rw [List.getD_eq_getElem ps (0,0) ht]
      conv_lhs => rw [← List.take_append_drop t ps]
      rw [List.drop_eq_getElem_cons ht]]
    rw [writeSlots_append, writeSlots_cons, List.append_assoc]
  · rw [writeSlots_length, List.length_take, Nat.min_eq_left (Nat.le_of_lt ht)]

theorem mapExcept_ok (f : α → Except ReadErr β) (g : α → β) (l : List α)
    (h : ∀ x ∈ l, f x = .ok (g x)) : mapExcept f l = .ok (l.map g) := by
  induction l with
  | nil => rfl
  | cons x xs ih =>
    rw [mapExcept, h x (List.mem_cons_self x xs),
        ih (fun y hy => h y (List.mem_cons_of_mem x hy)), List.map_cons]

theorem pyMin_eq_head (x : Nat) (xs : List Nat) (h : ∀ y ∈ xs, x ≤ y) :
    pyMin (x :: xs) = x := by
  rw [pyMin]
  induction xs generalizing x with
  | nil => rfl
  | cons y ys ih =>
    have hxy : Nat.min x y = x :=
      Nat.min_eq_left (h y (List.mem_cons_self y ys))
    rw [List.foldl_cons, hxy]
    exact ih x (fun z hz => h z (List.mem_cons_of_mem y hz))

/-! ### Derived vocabulary for the writer's layout -/

/-- The bytes `Writer.put` appends for one record. -/
def encodeRecord (kv : Bytes × Bytes) : Bytes :=
  writePair kv.1.length kv.2.length ++ kv.1 ++ kv.2

/-- The record region produced by a sequence of `put` calls. -/
def encodeRecs (kvs : List (Bytes × Bytes)) : Bytes :=
  (kvs.map encodeRecord).flatten

/-- Each record paired with the sink offset at which `put` wrote it. -/
def layout (pos : Nat) : List (Bytes × Bytes) → List (Nat × Bytes × Bytes)
  | [] => []
  | kv :: rest => (pos, kv) :: layout (pos + (encodeRecord kv).length) rest

/-- The `(hash, offset)` list accumulated in bucket `i` by the `put` calls. -/
def bucketOf (recs : List (Nat × Bytes × Bytes)) (i : Nat) : List (Nat × Nat) :=
  recs.filterMap fun r =>
    if py_djb_hash r.2.1 &&& 0xff = i then some (py_djb_hash r.2.1, r.1)
    else none

/-- The index entries `finalize` accumulates while walking the buckets in a
given order, starting from a sink of length `base`. -/
def indexFor (bk : Nat → List (Nat × Nat)) (base : Nat) :
    List Nat → List (Nat × Nat)
  | [] => []
  | i :: rest =>
    (base, (bk i).length * 2) :: indexFor bk (base + 16 * (bk i).length) rest

/-- The slot-table bytes `finalize` appends while walking the buckets. -/
def tablesFor (bk : Nat → List (Nat × Nat)) (l : List Nat) : Bytes :=
  (l.map fun i => writeSlots (placeAll (bk i))).flatten

/-! ### Writer structure lemmas -/

theorem encodeRecord_length (kv : Bytes × Bytes) :
    (encodeRecord kv).length = 8 + kv.1.length + kv.2.length := by
  simp [encodeRecord, writePair_length]
  omega

theorem placeRecord_length (ordered : List (Nat × Nat)) (pair : Nat × Nat) :
    (placeRecord ordered pair).length = ordered.length := by
  rw [placeRecord]
  cases hf : (List.range' ((pair.1 >>> 8) % ordered.length)
      (ordered.length - (pair.1 >>> 8) % ordered.length) ++
      List.range ((pair.1 >>> 8) % ordered.length)).find?
      (fun i => (ordered.getD i (0, 0)).1 == 0) with
  | none => simp
  | some t => simp

theorem foldl_placeRecord_length (tbl : List (Nat × Nat))
    (T : List (Nat × Nat)) :
    (tbl.foldl placeRecord T).length = T.length := by
  induction tbl generalizing T with
  | nil => rfl
  | cons p ps ih => rw [List.foldl_cons, ih, placeRecord_length]

theorem placeAll_length (tbl : List (Nat × Nat)) :
    (placeAll tbl).length = tbl.length * 2 := by
  rw [placeAll, foldl_placeRecord_length, List.length_replicate]

theorem bucketOf_nil (i : Nat) : bucketOf [] i = [] := rfl

theorem bucketOf_cons (r : Nat × Bytes × Bytes) (rs : List (Nat × Bytes × Bytes))
    (i : Nat) :
    bucketOf (r :: rs) i =
      (if py_djb_hash r.2.1 &&& 0xff = i then [(py_djb_hash r.2.1, r.1)] else [])
        ++ bucketOf rs i := by
  rw [bucketOf, List.filterMap_cons]
  split <;> simp_all [bucketOf]

theorem layout_length (pos : Nat) (kvs : List (Bytes × Bytes)) :
    (layout pos kvs).length = kvs.length := by
  induction kvs generalizing pos with
  | nil => rfl
  | cons kv rest ih => rw [layout, List.length_cons, ih, List.length_cons]

theorem putAll_state (kvs : List (Bytes × Bytes)) :
    ∀ (d : Bytes) (bk : Nat → List (Nat × Nat)),
    putAll { fp := some d, hashfn := py_djb_hash, unordered := bk } kvs =
      some { fp := some (d ++ encodeRecs kvs),
             hashfn := py_djb_hash,
             unordered := fun i => bk i ++ bucketOf (layout d.length kvs) i } := by
  induction kvs with
  | nil =>
    intro d bk
    rw [putAll]
    have h1 : d ++ encodeRecs [] = d := by simp [encodeRecs]
    have h2 : (fun i => bk i ++ bucketOf (layout d.length []) i) = bk := by
      funext i; simp [layout, bucketOf]
    rw [h1, h2]
  | cons kv rest ih =>
    intro d bk
    have hput : Writer.put { fp := some d, hashfn := py_djb_hash, unordered := bk }
        kv.1 kv.2 =
        some { fp := some (d ++ encodeRecord kv),
               hashfn := py_djb_hash,
               unordered := fun i =>
                 if i = (py_djb_hash kv.1 &&& 0xff) then
                   bk i ++ [(py_djb_hash kv.1, d.length)]
                 else bk i } := by
      rw [Writer.put]
      simp only [py_djb_hash_mask]
      rw [encodeRecord]
      simp [List.append_assoc]
    rw [putAll]
    simp only [hput]
    rw [ih]
    have hlen : (d ++ encodeRecord kv).length = d.length + (encodeRecord kv).length := by
      simp
    refine congrArg some ?_
    have hfp : d ++ encodeRecord kv ++ encodeRecs rest = d ++ encodeRecs (kv :: rest) := by
      simp [encodeRecs, List.append_assoc]
    have hbk : (fun i =>
        (if i = (py_djb_hash kv.1 &&& 0xff) then bk i ++ [(py_djb_hash kv.1, d.length)]
         else bk i) ++ bucketOf (layout (d ++ encodeRecord kv).length rest) i) =
        (fun i => bk i ++ bucketOf (layout d.length (kv :: rest)) i) := by
      funext i
      rw [hlen, layout]
      rw [show ((d.length, kv) :: layout (d.length + (encodeRecord kv).length) rest) =
        [(d.length, kv)] ++ layout (d.length + (encodeRecord kv).length) rest from rfl]
      by_cases hi : i = (py_djb_hash kv.1 &&& 0xff)
      · rw [if_pos hi]
        rw [show bucketOf ([(d.length, kv)] ++ layout (d.length + (encodeRecord kv).length) rest) i =
          (if py_djb_hash kv.1 &&& 0xff = i then [(py_djb_hash kv.1, d.length)] else [])
            ++ bucketOf (layout (d.length + (encodeRecord kv).length) rest) i from
          bucketOf_cons _ _ _]
        rw [if_pos hi.symm, List.append_assoc]
      · rw [if_neg hi]
        rw [show bucketOf ([(d.length, kv)] ++ layout (d.length + (encodeRecord kv).length) rest) i =
          (if py_djb_hash kv.1 &&& 0xff = i then [(py_djb_hash kv.1, d.length)] else [])
            ++ bucketOf (layout (d.length + (encodeRecord kv).length) rest) i from
          bucketOf_cons _ _ _]
        rw [if_neg (fun hc => hi hc.symm), List.nil_append]
    rw [hfp] at *
    rw [hbk]

theorem tablesFor_nil (bk : Nat → List (Nat × Nat)) : tablesFor bk [] = [] := rfl

theorem tablesFor_cons (bk : Nat → List (Nat × Nat)) (i : Nat) (l : List Nat) :
    tablesFor bk (i :: l) = writeSlots (placeAll (bk i)) ++ tablesFor bk l := by
  simp [tablesFor]

theorem foldl_finalizeStep (bk : Nat → List (Nat × Nat)) (l : List Nat) :
    ∀ (ix0 : List (Nat × Nat)) (d0 : Bytes),
    l.foldl (finalizeStep bk) (ix0, d0) =
      (ix0 ++ indexFor bk d0.length l, d0 ++ tablesFor bk l) := by
  induction l with
  | nil => intro ix0 d0; simp [indexFor, tablesFor]
  | cons i rest ih =>
    intro ix0 d0
    rw [List.foldl_cons,
        show finalizeStep bk (ix0, d0) i =
          (ix0 ++ [(d0.length, (bk i).length * 2)],
           d0 ++ writeSlots (placeAll (bk i))) from rfl,
        ih]
    have hlen : (d0 ++ writeSlots (placeAll (bk i))).length =
        d0.length + 16 * (bk i).length := by
      rw [List.length_append, writeSlots_length, placeAll_length]
      ring_nf
    rw [hlen]
    refine congrArg₂ Prod.mk ?_ ?_
    · rw [indexFor, List.append_assoc, List.singleton_append]
    · rw [tablesFor_cons, List.append_assoc]

/-- The bucket lists held by the writer after `put`ting `kvs` into a fresh
database (the record region starts at offset 2048). -/
def bucketsOf (kvs : List (Bytes × Bytes)) (i : Nat) : List (Nat × Nat) :=
  bucketOf (layout 2048 kvs) i

/-- The index `finalize` writes for `kvs`. -/
def indexOf (kvs : List (Bytes × Bytes)) : List (Nat × Nat) :=
  indexFor (bucketsOf kvs) (2048 + (encodeRecs kvs).length) (List.range 256)

/-- The finished file: index, record region, slot tables. -/
def fileOf (kvs : List (Bytes × Bytes)) : Bytes :=
  writeSlots (indexOf kvs) ++
    (encodeRecs kvs ++ tablesFor (bucketsOf kvs) (List.range 256))

theorem buildCDB_eq (kvs : List (Bytes × Bytes)) :
    buildCDB kvs = some (fileOf kvs) := by
  rw [buildCDB,
      show Writer.init =
        { fp := some (List.replicate (256 * 8) 0), hashfn := py_djb_hash,
          unordered := fun _ => [] } from rfl]
  rw [putAll_state]
  have hrep : (List.replicate (256 * 8) (0 : Nat)).length = 2048 := by
    rw [List.length_replicate]
  have hbk : (fun i => (fun _ => ([] : List (Nat × Nat))) i ++
      bucketOf (layout (List.replicate (256 * 8) (0 : Nat)).length kvs) i) =
      bucketsOf kvs := by
    funext i
    rw [hrep]
    simp [bucketsOf]
  rw [hbk]
  show (Writer.finalize _).map Prod.fst = _
  rw [show Writer.finalize
      { fp := some (List.replicate (256 * 8) 0 ++ encodeRecs kvs),
        hashfn := py_djb_hash, unordered := bucketsOf kvs } =
      some (writeSlots (finalizeCore (bucketsOf kvs)
              (List.replicate (256 * 8) 0 ++ encodeRecs kvs)).1 ++
            (finalizeCore (bucketsOf kvs)
              (List.replicate (256 * 8) 0 ++ encodeRecs kvs)).2.drop 2048,
            { fp := none, hashfn := py_djb_hash, unordered := bucketsOf kvs })
      from rfl]
  rw [finalizeCore, foldl_finalizeStep]
  have hlen2 : (List.replicate (256 * 8) (0 : Nat) ++ encodeRecs kvs).length =
      2048 + (encodeRecs kvs).length := by
    rw [List.length_append, hrep]
  rw [hlen2]
  refine congrArg some ?_
  show writeSlots ([] ++ indexFor (bucketsOf kvs)
        (2048 + (encodeRecs kvs).length) (List.range 256)) ++
      List.drop 2048 (List.replicate (256 * 8) 0 ++ encodeRecs kvs ++
        tablesFor (bucketsOf kvs) (List.range 256)) =
      fileOf kvs
  rw [List.nil_append, fileOf, indexOf, List.append_assoc,
      List.drop_left' hrep]

/-! ### Index properties and general list helpers -/

theorem mapExcept_map (f : β → Except ReadErr γ) (g : α → β) (l : List α) :
    mapExcept f (l.map g) = mapExcept (fun x => f (g x)) l := by
  induction l with
  | nil => rfl
  | cons x xs ih => rw [List.map_cons, mapExcept, mapExcept, ih]

theorem map_getD_range (l : List α) (d : α) :
    (List.range l.length).map (fun i => l.getD i d) = l := by
  induction l with
  | nil => rfl
  | cons x xs ih =>
    rw [List.length_cons, List.range_succ_eq_map, List.map_cons, List.map_map]
    refine congrArg₂ List.cons rfl ?_
    rw [show ((fun i => (x :: xs).getD i d) ∘ Nat.succ) =
        (fun i => xs.getD i d) from rfl]
    exact ih

theorem sum_map_add (l : List α) (f g : α → Nat) :
    (l.map (fun x => f x + g x)).sum = (l.map f).sum + (l.map g).sum := by
  induction l with
  | nil => rfl
  | cons x xs ih => simp [ih]; omega

theorem sum_indicator (n m a : Nat) (h : m < n) :
    ((List.range n).map (fun i => if m = i then a else 0)).sum = a := by
  induction n with
  | zero => omega
  | succ n ih =>
    rw [List.range_succ, List.map_append, List.sum_append]
    by_cases hm : m = n
    · have hz : (((List.range n).map (fun i => if m = i then a else 0)).sum) = 0 := by
        apply List.sum_eq_zero
        intro x hx
        obtain ⟨i, hi, hix⟩ := List.mem_map.mp hx
        have : i < n := List.mem_range.mp hi
        rw [if_neg (by omega)] at hix
        omega
      rw [hz]
      simp [hm]
    · rw [ih (by omega)]
      simp [hm]

theorem bucket_count (recs : List (Nat × Bytes × Bytes)) :
    ((List.range 256).map (fun i => (bucketOf recs i).length)).sum = recs.length := by
  induction recs with
  | nil =>
    rw [show (fun i => (bucketOf ([] : List (Nat × Bytes × Bytes)) i).length) =
        (fun _ => 0) from rfl]
    simp
  | cons r rs ih =>
    have hcons : ∀ i : Nat, (bucketOf (r :: rs) i).length =
        (if py_djb_hash r.2.1 &&& 0xff = i then 1 else 0) + (bucketOf rs i).length := by
      intro i
      rw [bucketOf_cons, List.length_append]
      split <;> simp
    rw [List.map_congr_left (fun i _ => hcons i), sum_map_add,
        sum_indicator 256 (py_djb_hash r.2.1 &&& 0xff) 1 (mask8_lt _), ih,
        List.length_cons]
    omega

theorem indexFor_length (bk : Nat → List (Nat × Nat)) (l : List Nat) :
    ∀ base, (indexFor bk base l).length = l.length := by
  induction l with
  | nil => intro base; rfl
  | cons i rest ih => intro base; rw [indexFor, List.length_cons, ih, List.length_cons]

theorem indexFor_fst_ge (bk : Nat → List (Nat × Nat)) (l : List Nat) :
    ∀ base, ∀ p ∈ indexFor bk base l, base ≤ p.1 := by
  induction l with
  | nil => intro base p hp; simp [indexFor] at hp
  | cons i rest ih =>
    intro base p hp
    rw [indexFor, List.mem_cons] at hp
    rcases hp with h | h
    · rw [h]
    · have := ih (base + 16 * (bk i).length) p h
      omega

theorem indexFor_getD (bk : Nat → List (Nat × Nat)) (l : List Nat) :
    ∀ base j, j < l.length →
    (indexFor bk base l).getD j (0, 0) =
      (base + 16 * ((l.take j).map (fun m => (bk m).length)).sum,
       (bk (l.getD j 0)).length * 2) := by
  induction l with
  | nil => intro base j hj; simp at hj
  | cons i rest ih =>
    intro base j hj
    cases j with
    | zero => simp [indexFor]
    | succ j =>
      rw [indexFor, List.getD_cons_succ,
          ih (base + 16 * (bk i).length) j (by simpa using hj)]
      rw [List.take_succ_cons, List.map_cons, List.sum_cons, List.getD_cons_succ]
      refine congrArg₂ Prod.mk ?_ rfl
      ring

theorem indexFor_map_shift (bk : Nat → List (Nat × Nat)) (l : List Nat) :
    ∀ base, (indexFor bk base l).map (fun p => p.2 >>> 1) =
      l.map (fun i => (bk i).length) := by
  induction l with
  | nil => intro base; rfl
  | cons i rest ih =>
    intro base
    rw [indexFor, List.map_cons, List.map_cons, ih]
    refine congrArg₂ List.cons ?_ rfl
    rw [Nat.shiftRight_eq_div_pow]
    omega

theorem slice_writeSlots (P R : Bytes) (ps : List (Nat × Nat)) (t : Nat)
    (ht : t < ps.length) :
    slice (P ++ (writeSlots ps ++ R)) (P.length + 8 * t) 8 =
      writePair (ps.getD t (0, 0)).1 (ps.getD t (0, 0)).2 := by
  obtain ⟨hdec, hlen⟩ := writeSlots_decomp ps t ht
  rw [hdec]
  rw [show P ++ ((writeSlots (ps.take t) ++
        writePair (ps.getD t (0, 0)).1 (ps.getD t (0, 0)).2 ++
        writeSlots (ps.drop (t + 1))) ++ R) =
      (P ++ writeSlots (ps.take t)) ++
        writePair (ps.getD t (0, 0)).1 (ps.getD t (0, 0)).2 ++
        (writeSlots (ps.drop (t + 1)) ++ R) by
    simp [List.append_assoc]]
  exact slice_at _ _ _ _ _ (by rw [List.length_append, hlen]) (writePair_length _ _).symm

/-! ### The total size and the reader-parse theorem -/

/-- The length of the finished file: header, record region, slot tables
(16 bytes per record at load factor 0.5).  All offsets and lengths the
writer packs are bounded by it; theorems assume it fits in 32 bits, which
is where Python's `struct.pack('<LL', ...)` would raise. -/
def totalSize (kvs : List (Bytes × Bytes)) : Nat :=
  2048 + (encodeRecs kvs).length + 16 * kvs.length

theorem tablesFor_length (bk : Nat → List (Nat × Nat)) (l : List Nat) :
    (tablesFor bk l).length = 16 * (l.map (fun i => (bk i).length)).sum := by
  induction l with
  | nil => rfl
  | cons i rest ih =>
    rw [tablesFor_cons, List.length_append, ih, writeSlots_length,
        placeAll_length, List.map_cons, List.sum_cons]
    ring

theorem sum_bucketsOf (kvs : List (Bytes × Bytes)) :
    ((List.range 256).map (fun i => (bucketsOf kvs i).length)).sum = kvs.length := by
  rw [show (fun i => (bucketsOf kvs i).length) =
      (fun i => (bucketOf (layout 2048 kvs) i).length) from rfl,
    bucket_count, layout_length]

theorem indexOf_length (kvs : List (Bytes × Bytes)) :
    (indexOf kvs).length = 256 := by
  rw [indexOf, indexFor_length, List.length_range]

theorem fileOf_length (kvs : List (Bytes × Bytes)) :
    (fileOf kvs).length = totalSize kvs := by
  rw [fileOf, List.length_append, List.length_append, writeSlots_length,
      indexOf_length, tablesFor_length, sum_bucketsOf, totalSize]
  ring

theorem indexOf_getD_spec (kvs : List (Bytes × Bytes)) (j : Nat) (hj : j < 256) :
    (indexOf kvs).getD j (0, 0) =
      (2048 + (encodeRecs kvs).length +
         16 * (((List.range j).map (fun m => (bucketsOf kvs m).length)).sum),
       (bucketsOf kvs j).length * 2) := by
  rw [indexOf, indexFor_getD _ _ _ j (by simpa using hj)]
  rw [List.take_range, Nat.min_eq_left (Nat.le_of_lt hj)]
  rw [List.getD_eq_getElem _ _ (by simpa using hj), List.getElem_range]

theorem indexOf_entry_le (kvs : List (Bytes × Bytes)) (j : Nat) (hj : j < 256) :
    ((indexOf kvs).getD j (0, 0)).1 ≤ totalSize kvs ∧
    ((indexOf kvs).getD j (0, 0)).2 ≤ totalSize kvs := by
  rw [indexOf_getD_spec kvs j hj]
  have hsum : (((List.range j).map (fun m => (bucketsOf kvs m).length)).sum) ≤
      kvs.length := by
    rw [← sum_bucketsOf kvs]
    have hsub : (List.range j).map (fun m => (bucketsOf kvs m).length) =
        ((List.range 256).map (fun m => (bucketsOf kvs m).length)).take j := by
      rw [← List.map_take, List.take_range, Nat.min_eq_left (Nat.le_of_lt hj)]
    rw [hsub]
    conv_rhs => rw [← List.take_append_drop j
      ((List.range 256).map (fun m => (bucketsOf kvs m).length))]
    rw [List.sum_append]
    omega
  have hone : (bucketsOf kvs j).length ≤ kvs.length := by
    have hmem : (bucketsOf kvs j).length ∈
        (List.range 256).map (fun m => (bucketsOf kvs m).length) :=
      List.mem_map.mpr ⟨j, List.mem_range.mpr hj, rfl⟩
    calc (bucketsOf kvs j).length ≤
        ((List.range 256).map (fun m => (bucketsOf kvs m).length)).sum :=
          List.single_le_sum (fun x _ => Nat.zero_le x) _ hmem
      _ = kvs.length := sum_bucketsOf kvs
  rw [totalSize]
  omega

theorem mkReader_fileOf (kvs : List (Bytes × Bytes))
    (hsize : totalSize kvs < 4294967296) :
    mkReader (fileOf kvs) = .ok
      { data := fileOf kvs, hashfn := py_djb_hash, variant := .v32,
        index := indexOf kvs,
        table_start := 2048 + (encodeRecs kvs).length,
        length := kvs.length } := by
  rw [mkReader, mkReaderAux]
  have hlen : (fileOf kvs).length = totalSize kvs := fileOf_length kvs
  have h2048 : ¬ ((fileOf kvs).length < 2048) := by rw [hlen, totalSize]; omega
  simp only [h2048, if_false]
  have hxr : xrangeL 0 (256 * pairSize .v32) (pairSize .v32) =
      (List.range 256).map (fun j => 0 + 8 * j) := by
    show xrangeL 0 (256 * 8) 8 = _
    rw [show 256 * 8 = 0 + 8 * 256 from rfl, xrangeL_eq 0 256 8 (by norm_num),
        range'_eq_map]
  rw [hxr, mapExcept_map]
  have hread : ∀ j ∈ List.range 256,
      readPairE (pairSize .v32) (slice (fileOf kvs) (0 + 8 * j) (pairSize .v32)) =
      .ok ((indexOf kvs).getD j (0, 0)) := by
    intro j hj
    have hj' : j < 256 := List.mem_range.mp hj
    show readPairE 8 (slice (fileOf kvs) (0 + 8 * j) 8) = _
    have hsl : slice (fileOf kvs) (0 + 8 * j) 8 =
        writePair ((indexOf kvs).getD j (0, 0)).1 ((indexOf kvs).getD j (0, 0)).2 := by
      have := slice_writeSlots []
        (encodeRecs kvs ++ tablesFor (bucketsOf kvs) (List.range 256))
        (indexOf kvs) j (by rw [indexOf_length]; exact hj')
      simpa [fileOf] using this
    rw [hsl]
    obtain ⟨h1, h2⟩ := indexOf_entry_le kvs j hj'
    exact readPairE_writePair _ _ (by omega) (by omega)
  rw [mapExcept_ok _ _ _ hread]
  have hmap : (List.range 256).map (fun j => (indexOf kvs).getD j (0, 0)) =
      indexOf kvs := by
    conv_lhs => rw [show (256 : Nat) = (indexOf kvs).length from
      (indexOf_length kvs).symm]
    exact map_getD_range _ _
  rw [hmap]
  have hts : pyMin ((indexOf kvs).map Prod.fst) =
      2048 + (encodeRecs kvs).length := by
    rw [indexOf, show (256 : Nat) = 255 + 1 from rfl, List.range_succ_eq_map,
        indexFor, List.map_cons]
    apply pyMin_eq_head
    intro y hy
    obtain ⟨p, hp, hpy⟩ := List.mem_map.mp hy
    have := indexFor_fst_ge (bucketsOf kvs) _ _ p hp
    omega
  have hsum : ((indexOf kvs).map (fun p => p.2 >>> 1)).sum = kvs.length := by
    rw [indexOf, indexFor_map_shift, sum_bucketsOf]
  show (Except.ok
      { data := fileOf kvs, hashfn := py_djb_hash, variant := Variant.v32,
        index := indexOf kvs,
        table_start := pyMin ((indexOf kvs).map Prod.fst),
        length := ((indexOf kvs).map (fun p => p.2 >>> 1)).sum } :
      Except ReadErr Reader) =
    Except.ok
      { data := fileOf kvs, hashfn := py_djb_hash, variant := Variant.v32,
        index := indexOf kvs,
        table_start := 2048 + (encodeRecs kvs).length,
        length := kvs.length }
  rw [hts, hsum]

/-! ### Record read-back and iteritems -/

theorem encodeRecs_nil : encodeRecs [] = [] := rfl

theorem encodeRecs_cons (kv : Bytes × Bytes) (rest : List (Bytes × Bytes)) :
    encodeRecs (kv :: rest) = encodeRecord kv ++ encodeRecs rest := by
  simp [encodeRecs]

theorem layout_mem_decomp (kvs : List (Bytes × Bytes)) :
    ∀ (q p : Nat) (kr vr : Bytes), (p, kr, vr) ∈ layout q kvs →
    ∃ X Y, encodeRecs kvs = X ++ (encodeRecord (kr, vr) ++ Y) ∧
      q + X.length = p := by
  induction kvs with
  | nil => intro q p kr vr h; simp [layout] at h
  | cons kv rest ih =>
    intro q p kr vr h
    rw [layout, List.mem_cons] at h
    rcases h with h | h
    · obtain ⟨hp, hkv⟩ := Prod.mk.injEq .. ▸ h
      refine ⟨[], encodeRecs rest, ?_, ?_⟩
      · rw [List.nil_append, encodeRecs_cons, ← hkv]
      · simp [hp.symm]
    · obtain ⟨X, Y, hdec, hpos⟩ := ih _ _ _ _ h
      refine ⟨encodeRecord kv ++ X, Y, ?_, ?_⟩
      · rw [encodeRecs_cons, hdec, List.append_assoc]
      · rw [List.length_append]
        omega

theorem record_reads (kvs : List (Bytes × Bytes))
    (hsize : totalSize kvs < 4294967296)
    (p : Nat) (kr vr : Bytes) (hmem : (p, kr, vr) ∈ layout 2048 kvs) :
    readPairE 8 (slice (fileOf kvs) p 8) = .ok (kr.length, vr.length) ∧
    slice (fileOf kvs) (p + 8) kr.length = kr ∧
    slice (fileOf kvs) (p + 8 + kr.length) vr.length = vr := by
  obtain ⟨X, Y, hdec, hpos⟩ := layout_mem_decomp kvs 2048 p kr vr hmem
  have hH : (writeSlots (indexOf kvs)).length = 2048 := by
    rw [writeSlots_length, indexOf_length]
  have hklt : kr.length < 4294967296 ∧ vr.length < 4294967296 := by
    have h1 : (encodeRecs kvs).length =
        X.length + ((encodeRecord (kr, vr)).length + Y.length) := by
      rw [hdec]; simp
    have h2 : (encodeRecord (kr, vr)).length = 8 + kr.length + vr.length :=
      encodeRecord_length _
    have := hsize
    rw [totalSize] at this
    omega
  have hF : fileOf kvs = writeSlots (indexOf kvs) ++
      (X ++ ((writePair kr.length vr.length ++ kr ++ vr) ++
        (Y ++ tablesFor (bucketsOf kvs) (List.range 256)))) := by
    rw [fileOf, hdec, encodeRecord]
    simp [List.append_assoc]
  refine ⟨?_, ?_, ?_⟩
  · have hsl : slice (fileOf kvs) p 8 = writePair kr.length vr.length := by
      rw [hF, show writeSlots (indexOf kvs) ++
          (X ++ ((writePair kr.length vr.length ++ kr ++ vr) ++
            (Y ++ tablesFor (bucketsOf kvs) (List.range 256)))) =
          (writeSlots (indexOf kvs) ++ X) ++ writePair kr.length vr.length ++
            (kr ++ vr ++ (Y ++ tablesFor (bucketsOf kvs) (List.range 256))) by
        simp [List.append_assoc]]
      exact slice_at _ _ _ _ _
        (by rw [List.length_append, hH]; omega) (writePair_length _ _).symm
    rw [hsl]
    exact readPairE_writePair _ _ hklt.1 hklt.2
  · rw [hF, show writeSlots (indexOf kvs) ++
        (X ++ ((writePair kr.length vr.length ++ kr ++ vr) ++
          (Y ++ tablesFor (bucketsOf kvs) (List.range 256)))) =
        (writeSlots (indexOf kvs) ++ X ++ writePair kr.length vr.length) ++ kr ++
          (vr ++ (Y ++ tablesFor (bucketsOf kvs) (List.range 256))) by
      simp [List.append_assoc]]
    exact slice_at _ _ _ _ _
      (by simp [hH, writePair_length]; omega) rfl
  · rw [hF, show writeSlots (indexOf kvs) ++
        (X ++ ((writePair kr.length vr.length ++ kr ++ vr) ++
          (Y ++ tablesFor (bucketsOf kvs) (List.range 256)))) =
        (writeSlots (indexOf kvs) ++ X ++ writePair kr.length vr.length ++ kr) ++ vr ++
          (Y ++ tablesFor (bucketsOf kvs) (List.range 256)) by
      simp [List.append_assoc]]
    exact slice_at _ _ _ _ _
      (by simp [hH, writePair_length]; omega) rfl

theorem iterItemsFrom_spec (kvs : List (Bytes × Bytes))
    (hsize : totalSize kvs < 4294967296) :
    ∀ (suffix : List (Bytes × Bytes)) (pos : Nat),
    (∀ r ∈ layout pos suffix, r ∈ layout 2048 kvs) →
    pos + (encodeRecs suffix).length = 2048 + (encodeRecs kvs).length →
    iterItemsFrom (fileOf kvs) .v32 (2048 + (encodeRecs kvs).length) pos =
      .ok suffix := by
  intro suffix
  induction suffix with
  | nil =>
    intro pos _ hpos
    rw [encodeRecs_nil] at hpos
    simp only [List.length_nil, Nat.add_zero] at hpos
    rw [iterItemsFrom, dif_neg (by omega)]
  | cons kv rest ih =>
    intro pos hmem hpos
    rw [encodeRecs_cons, List.length_append, encodeRecord_length] at hpos
    have hlt : pos < 2048 + (encodeRecs kvs).length := by omega
    have hmem0 : (pos, kv.1, kv.2) ∈ layout 2048 kvs := by
      apply hmem
      rw [layout]
      exact List.mem_cons_self _ _
    obtain ⟨hr1, hr2, hr3⟩ := record_reads kvs hsize pos kv.1 kv.2 hmem0
    have hih : iterItemsFrom (fileOf kvs) .v32 (2048 + (encodeRecs kvs).length)
        (pos + 8 + kv.1.length + kv.2.length) = .ok rest := by
      have h1 : pos + 8 + kv.1.length + kv.2.length =
          pos + (encodeRecord kv).length := by
        rw [encodeRecord_length]; omega
      rw [h1]
      apply ih
      · intro r hr
        apply hmem
        rw [layout]
        exact List.mem_cons_of_mem _ hr
      · rw [encodeRecord_length]; omega
    rw [iterItemsFrom, dif_pos hlt]
    rw [show pairSize Variant.v32 = 8 from rfl]
    simp only [hr1]
    simp only [hih]
    rw [hr2, hr3]

theorem iteritems_fileOf (kvs : List (Bytes × Bytes))
    (hsize : totalSize kvs < 4294967296) :
    Reader.iteritems
      { data := fileOf kvs, hashfn := py_djb_hash, variant := .v32,
        index := indexOf kvs,
        table_start := 2048 + (encodeRecs kvs).length,
        length := kvs.length } = .ok kvs := by
  rw [Reader.iteritems]
  rw [show Reader.pair_size
      { data := fileOf kvs, hashfn := py_djb_hash, variant := .v32,
        index := indexOf kvs,
        table_start := 2048 + (encodeRecs kvs).length,
        length := kvs.length } * 256 = 2048 from rfl]
  exact iterItemsFrom_spec kvs hsize kvs 2048 (fun r hr => hr) rfl

/-! ### The probe ring -/

/-- The slot indices of a bucket of `L` slots in probe order, home slot `w`
first: the two `xrange` segments of `gets` and of the placement loop. -/
def probeList (w L : Nat) : List Nat :=
  List.range' w (L - w) ++ List.range w

/-- The slot contents of table `T` in probe order from home `w`. -/
def probeSlots (T : List (Nat × Nat)) (w : Nat) : List (Nat × Nat) :=
  (probeList w T.length).map (fun t => T.getD t (0, 0))

/-- The position of slot `t` in the probe order from home `w`. -/
def ringIdx (t w L : Nat) : Nat :=
  if w ≤ t then t - w else L - w + t

theorem mem_range'_one (t s n : Nat) : t ∈ List.range' s n ↔ s ≤ t ∧ t < s + n := by
  rw [List.mem_range']
  constructor
  · rintro ⟨i, hi, rfl⟩; omega
  · rintro ⟨h1, h2⟩; exact ⟨t - s, by omega, by omega⟩

theorem probeList_length (w L : Nat) (hw : w ≤ L) :
    (probeList w L).length = L := by
  rw [probeList, List.length_append, List.length_range', List.length_range]
  omega

theorem probeList_mem (w L t : Nat) (hw : w ≤ L) :
    t ∈ probeList w L ↔ t < L := by
  rw [probeList, List.mem_append, mem_range'_one, List.mem_range]
  omega

theorem probeList_nodup (w L : Nat) : (probeList w L).Nodup := by
  rw [probeList]
  refine List.Nodup.append (List.nodup_range' _ _) (List.nodup_range _) ?_
  intro t ht1 ht2
  rw [mem_range'_one] at ht1
  rw [List.mem_range] at ht2
  omega

theorem ringIdx_lt (t w L : Nat) (ht : t < L) (hw : w ≤ L) :
    ringIdx t w L < L := by
  rw [ringIdx]; split <;> omega

theorem probeList_getD_ringIdx (t w L : Nat) (ht : t < L) (hw : w ≤ L) :
    (probeList w L).getD (ringIdx t w L) 0 = t := by
  rw [List.getD_eq_getElem?_getD]
  by_cases hwt : w ≤ t
  · have hr : ringIdx t w L = t - w := if_pos hwt
    rw [hr, probeList, List.getElem?_append_left
          (by rw [List.length_range']; omega),
        List.getElem?_range' _ _ (by omega)]
    simp only [Option.getD_some]
    omega
  · have hr : ringIdx t w L = L - w + t := if_neg hwt
    rw [hr, probeList, List.getElem?_append_right
          (by rw [List.length_range']; omega),
        List.length_range']
    rw [show L - w + t - (L - w) = t from by omega,
        List.getElem?_range (by omega)]
    simp

theorem ringIdx_probeList_getD (n w L : Nat) (hn : n < L) (hw : w ≤ L) :
    ringIdx ((probeList w L).getD n 0) w L = n := by
  rw [List.getD_eq_getElem?_getD]
  by_cases hcase : n < L - w
  · rw [probeList, List.getElem?_append_left
          (by rw [List.length_range']; omega),
        List.getElem?_range' _ _ (by omega)]
    simp only [Option.getD_some]
    rw [ringIdx, if_pos (by omega)]
    omega
  · rw [probeList, List.getElem?_append_right
          (by rw [List.length_range']; omega),
        List.length_range', List.getElem?_range (by omega)]
    simp only [Option.getD_some]
    rw [ringIdx]
    split
    · omega
    · omega

theorem map_update_nodup {α : Type} (l : List Nat) (t : Nat) (f : Nat → α)
    (x : α) :
    ∀ (j : Nat), l.Nodup → j < l.length → l.getD j 0 = t →
    l.map (fun i => if i = t then x else f i) = (l.map f).set j x := by
  induction l with
  | nil => intro j _ hj _; simp at hj
  | cons a l' ih =>
    intro j hnd hj hjt
    have ha : a ∉ l' := (List.nodup_cons.mp hnd).1
    have hnd' : l'.Nodup := (List.nodup_cons.mp hnd).2
    cases j with
    | zero =>
      rw [List.getD_cons_zero] at hjt
      rw [List.map_cons, List.map_cons, List.set_cons_zero, if_pos hjt]
      refine congrArg (List.cons x) ?_
      apply List.map_congr_left
      intro i hi
      rw [if_neg (fun hit => ha (by rw [hjt, ← hit]; exact hi))]
    | succ j =>
      rw [List.getD_cons_succ] at hjt
      have hj' : j < l'.length := by simpa using hj
      have htl' : t ∈ l' := by
        rw [← hjt, List.getD_eq_getElem _ _ hj']
        exact List.getElem_mem _
      rw [List.map_cons, List.map_cons, List.set_cons_succ,
          if_neg (fun hat => ha (by rw [hat]; exact htl')), ih j hnd' hj' hjt]

theorem probeSlots_length (T : List (Nat × Nat)) (w : Nat) (hw : w ≤ T.length) :
    (probeSlots T w).length = T.length := by
  rw [probeSlots, List.length_map, probeList_length _ _ hw]

theorem probeSlots_set (T : List (Nat × Nat)) (t w : Nat) (x : Nat × Nat)
    (ht : t < T.length) (hw : w ≤ T.length) :
    probeSlots (T.set t x) w =
      (probeSlots T w).set (ringIdx t w T.length) x := by
  rw [probeSlots, probeSlots, List.length_set]
  have hpt : ∀ i, (T.set t x).getD i (0, 0) =
      if i = t then x else T.getD i (0, 0) := by
    intro i
    by_cases hit : i = t
    · subst hit
      rw [if_pos rfl, List.getD_eq_getElem?_getD, List.getElem?_set_self ht]
      rfl
    · rw [if_neg hit, List.getD_eq_getElem?_getD,
          List.getElem?_set_ne (fun hh => hit hh.symm), List.getD_eq_getElem?_getD]
  rw [List.map_congr_left (fun i _ => hpt i)]
  exact map_update_nodup (probeList w T.length) t _ x (ringIdx t w T.length)
    (probeList_nodup w T.length)
    (by rw [probeList_length _ _ hw]; exact ringIdx_lt t w T.length ht hw)
    (probeList_getD_ringIdx t w T.length ht hw)

theorem probeSlots_getD (T : List (Nat × Nat)) (w j : Nat)
    (hw : w ≤ T.length) (hj : j < T.length) :
    (probeSlots T w).getD j (0, 0) =
      T.getD ((probeList w T.length).getD j 0) (0, 0) := by
  have hlen : (probeList w T.length).length = T.length := probeList_length _ _ hw
  have hjp : j < (probeList w T.length).length := by omega
  have helem : (probeList w T.length).getD j 0 = (probeList w T.length)[j] :=
    List.getD_eq_getElem _ _ hjp
  rw [probeSlots, List.getD_eq_getElem _ _ (by rw [List.length_map]; omega),
      List.getElem_map, helem]

theorem probeSlots_mem (T : List (Nat × Nat)) (w : Nat) (hw : w ≤ T.length) :
    ∀ s ∈ probeSlots T w, s ∈ T ∨ T = [] := by
  intro s hs
  rw [probeSlots] at hs
  obtain ⟨t, htl, rfl⟩ := List.mem_map.mp hs
  rcases Nat.eq_zero_or_pos T.length with hT | hT
  · right; exact List.length_eq_zero.mp hT
  · left
    have htL : t < T.length := (probeList_mem w T.length t hw).mp htl
    rw [List.getD_eq_getElem _ _ htL]
    exact List.getElem_mem _

/-! ### Helper lemmas for the placement invariant -/

theorem getD_append_left_lt {α : Type} (l1 l2 : List α) (j : Nat) (d : α)
    (hj : j < l1.length) : (l1 ++ l2).getD j d = l1.getD j d := by
  rw [List.getD_eq_getElem?_getD, List.getElem?_append_left hj,
      List.getD_eq_getElem?_getD]

theorem dropWhile_head_false {α : Type} (p : α → Bool) (l : List α)
    (d : α) (D' : List α) (h : l.dropWhile p = d :: D') : p d = false := by
  induction l with
  | nil => simp [List.dropWhile] at h
  | cons a l' ih =>
    rw [List.dropWhile_cons] at h
    by_cases hp : p a = true
    · rw [if_pos hp] at h; exact ih h
    · rw [if_neg hp] at h
      cases h
      exact Bool.eq_false_iff.mpr hp

theorem takeWhile_append_all {α : Type} (p : α → Bool) (l1 l2 : List α)
    (h : ∀ a ∈ l1, p a = true) :
    (l1 ++ l2).takeWhile p = l1 ++ l2.takeWhile p := by
  induction l1 with
  | nil => simp
  | cons a l1' ih =>
    rw [List.cons_append, List.takeWhile_cons_of_pos
        (h a (List.mem_cons_self a l1')), ih (fun b hb => h b (List.mem_cons_of_mem a hb)),
        List.cons_append]

theorem dropWhile_append_all {α : Type} (p : α → Bool) (l1 l2 : List α)
    (h : ∀ a ∈ l1, p a = true) :
    (l1 ++ l2).dropWhile p = l2.dropWhile p := by
  induction l1 with
  | nil => simp
  | cons a l1' ih =>
    rw [List.cons_append, List.dropWhile_cons,
        if_pos (h a (List.mem_cons_self a l1')),
        ih (fun b hb => h b (List.mem_cons_of_mem a hb))]

theorem takeWhile_length_lt {α : Type} (p : α → Bool) (l : List α)
    (h : ∃ a ∈ l, p a = false) : (l.takeWhile p).length < l.length := by
  induction l with
  | nil => simp at h
  | cons a l' ih =>
    by_cases hp : p a = true
    · rw [List.takeWhile_cons_of_pos hp]
      obtain ⟨b, hb, hbf⟩ := h
      rcases List.mem_cons.mp hb with rfl | hb'
      · rw [hp] at hbf; cases hbf
      · have := ih ⟨b, hb', hbf⟩
        simp only [List.length_cons]
        omega
    · rw [List.takeWhile_cons_of_neg hp]
      simp

theorem find?_eq_of_takeWhile {α : Type} (q : α → Bool) (f : Nat → α) :
    ∀ (l : List Nat) (n : Nat),
    n = ((l.map f).takeWhile (fun a => ! q a)).length → n < l.length →
    l.find? (fun i => q (f i)) = some (l.getD n 0) := by
  intro l
  induction l with
  | nil => intro n _ hlt; simp at hlt
  | cons a l' ih =>
    intro n hn hlt
    rw [List.map_cons] at hn
    cases hq : q (f a) with
    | true =>
      rw [List.takeWhile_cons_of_neg (by rw [hq]; simp)] at hn
      simp only [List.length_nil] at hn
      subst hn
      rw [@List.find?_cons_of_pos _ (fun i => q (f i)) a l' (by simpa using hq),
          List.getD_cons_zero]
    | false =>
      rw [List.takeWhile_cons_of_pos (by rw [hq]; simp)] at hn
      rw [List.length_cons] at hn
      cases n with
      | zero => omega
      | succ n' =>
        rw [@List.find?_cons_of_neg _ (fun i => q (f i)) a l' (by simp [hq]),
            List.getD_cons_succ]
        exact ih n' (by omega) (by simpa using hlt)

theorem countP_set_zero (q : Nat × Nat → Bool) :
    ∀ (T : List (Nat × Nat)) (t₀ : Nat) (x : Nat × Nat),
    t₀ < T.length → q (T.getD t₀ (0, 0)) = true → q x = false →
    T.countP q = (T.set t₀ x).countP q + 1 := by
  intro T
  induction T with
  | nil => intro t₀ x ht _ _; simp at ht
  | cons a T' ih =>
    intro t₀ x ht hold hx
    cases t₀ with
    | zero =>
      rw [List.getD_cons_zero] at hold
      rw [List.set_cons_zero, List.countP_cons, List.countP_cons, hold, hx]
      simp
    | succ t₀' =>
      rw [List.getD_cons_succ] at hold
      rw [List.set_cons_succ, List.countP_cons, List.countP_cons,
          ih t₀' x (by simpa using ht) hold hx]
      omega

/-! ### The placement invariant -/

/-- Invariant of the `finalize` placement loop: after the records `P` (all
with nonzero hash) have been placed into the table `T`,

* a slot whose stored hash is zero is wholly empty;
* at most `P.length` slots are occupied;
* for every query hash `h`, walking the probe ring of `h` up to the first
  empty slot passes exactly the hash-`h` records of `P`, in placement
  order; and
* no hash-`h` slot lies at or beyond the first empty slot of `h`'s ring. -/
structure PlaceInv (P T : List (Nat × Nat)) : Prop where
  hzero : ∀ s ∈ T, s.1 = 0 → s = (0, 0)
  hcnt : T.length ≤ T.countP (fun s => s.1 == 0) + P.length
  htake : ∀ h : Nat, h ≠ 0 →
    ((probeSlots T ((h >>> 8) % T.length)).takeWhile
        (fun s => !(s.1 == 0))).filter (fun s => s.1 == h) =
      P.filter (fun s => s.1 == h)
  hdrop : ∀ h : Nat, h ≠ 0 →
    ∀ s ∈ (probeSlots T ((h >>> 8) % T.length)).dropWhile
        (fun s => !(s.1 == 0)), s.1 ≠ h

theorem placeRecord_eq (T : List (Nat × Nat)) (g p : Nat)
    (hex : ∃ s ∈ T, s.1 = 0) (hL : 0 < T.length) :
    ∃ t₀, t₀ < T.length ∧ (T.getD t₀ (0, 0)).1 = 0 ∧
      placeRecord T (g, p) = T.set t₀ (g, p) ∧
      ringIdx t₀ ((g >>> 8) % T.length) T.length =
        ((probeSlots T ((g >>> 8) % T.length)).takeWhile
          (fun s => !(s.1 == 0))).length := by
  have hw : (g >>> 8) % T.length < T.length := Nat.mod_lt _ hL
  have hfail : ∃ s ∈ probeSlots T ((g >>> 8) % T.length),
      (!(s.1 == 0)) = false := by
    obtain ⟨s, hsT, hs0⟩ := hex
    obtain ⟨t, htlen, hts⟩ := List.getElem_of_mem hsT
    refine ⟨s, ?_, by simp [hs0]⟩
    rw [probeSlots]
    refine List.mem_map.mpr ⟨t, ?_, ?_⟩
    · exact (probeList_mem _ T.length t (le_of_lt hw)).mpr htlen
    · rw [List.getD_eq_getElem _ _ htlen]; exact hts
  have hpslen : (probeSlots T ((g >>> 8) % T.length)).length = T.length :=
    probeSlots_length T _ (le_of_lt hw)
  have hnlt : ((probeSlots T ((g >>> 8) % T.length)).takeWhile
      (fun s => !(s.1 == 0))).length < T.length := by
    have := takeWhile_length_lt _ _ hfail
    omega
  have hplen : (probeList ((g >>> 8) % T.length) T.length).length = T.length :=
    probeList_length _ _ (le_of_lt hw)
  refine ⟨(probeList ((g >>> 8) % T.length) T.length).getD
      ((probeSlots T ((g >>> 8) % T.length)).takeWhile
        (fun s => !(s.1 == 0))).length 0, ?_, ?_, ?_, ?_⟩
  · rw [List.getD_eq_getElem _ _ (by omega)]
    exact (probeList_mem _ T.length _ (le_of_lt hw)).mp (List.getElem_mem _)
  · have hfind : (probeList ((g >>> 8) % T.length) T.length).find?
        (fun i => ((T.getD i (0, 0)).1 == 0)) =
        some ((probeList ((g >>> 8) % T.length) T.length).getD
          ((probeSlots T ((g >>> 8) % T.length)).takeWhile
            (fun s => !(s.1 == 0))).length 0) :=
      find?_eq_of_takeWhile (fun s : Nat × Nat => s.1 == 0)
        (fun t => T.getD t (0, 0)) _ _ rfl (by omega)
    have := List.find?_some hfind
    simpa using this
  · have hfind : (probeList ((g >>> 8) % T.length) T.length).find?
        (fun i => ((T.getD i (0, 0)).1 == 0)) =
        some ((probeList ((g >>> 8) % T.length) T.length).getD
          ((probeSlots T ((g >>> 8) % T.length)).takeWhile
            (fun s => !(s.1 == 0))).length 0) :=
      find?_eq_of_takeWhile (fun s : Nat × Nat => s.1 == 0)
        (fun t => T.getD t (0, 0)) _ _ rfl (by omega)
    show placeRecord T (g, p) = _
    rw [show placeRecord T (g, p) =
        (match (probeList ((g >>> 8) % T.length) T.length).find?
            (fun i => ((T.getD i (0, 0)).1 == 0)) with
          | some i => T.set i (g, p)
          | none => T) from rfl]
    rw [hfind]
  · exact ringIdx_probeList_getD _ _ _ hnlt (le_of_lt hw)

theorem getD_replicate_zero (L t : Nat) :
    (List.replicate L ((0 : Nat), (0 : Nat))).getD t (0, 0) = (0, 0) := by
  by_cases ht : t < L
  · rw [List.getD_eq_getElem _ _ (by simpa using ht), List.getElem_replicate]
  · rw [List.getD_eq_getElem?_getD,
        List.getElem?_eq_none (by simpa using Nat.not_lt.mp ht)]
    rfl

theorem probeSlots_replicate (L w : Nat) :
    probeSlots (List.replicate L ((0 : Nat), (0 : Nat))) w =
      List.replicate (probeList w L).length ((0 : Nat), (0 : Nat)) := by
  rw [probeSlots, List.length_replicate,
      List.map_congr_left (fun t _ => getD_replicate_zero L t),
      List.map_const']

theorem takeWhile_replicate_zero (n : Nat) :
    (List.replicate n ((0 : Nat), (0 : Nat))).takeWhile
      (fun s => !(s.1 == 0)) = [] := by
  cases n with
  | zero => rfl
  | succ n => rw [List.replicate_succ, List.takeWhile_cons_of_neg (by simp)]

theorem dropWhile_replicate_zero (n : Nat) :
    (List.replicate n ((0 : Nat), (0 : Nat))).dropWhile
      (fun s => !(s.1 == 0)) = List.replicate n ((0 : Nat), (0 : Nat)) := by
  cases n with
  | zero => rfl
  | succ n => rw [List.replicate_succ, List.dropWhile_cons_of_neg (by simp)]

theorem placeInv_start (L : Nat) :
    PlaceInv [] (List.replicate L (0, 0)) := by
  constructor
  · intro s hs _
    exact List.eq_of_mem_replicate hs
  · have hall : ∀ a ∈ List.replicate L ((0 : Nat), (0 : Nat)),
        ((a.1 == 0) : Bool) = true := by
      intro a ha
      rw [List.eq_of_mem_replicate ha]
      rfl
    have hcnt : (List.replicate L ((0 : Nat), (0 : Nat))).countP
        (fun s => s.1 == 0) = L := by
      rw [List.countP_eq_length.mpr hall, List.length_replicate]
    rw [List.length_replicate, hcnt]
    omega
  · intro h _
    rw [probeSlots_replicate, takeWhile_replicate_zero]
  · intro h hh s hs
    rw [probeSlots_replicate, dropWhile_replicate_zero] at hs
    rw [List.eq_of_mem_replicate hs]
    exact fun heq => hh heq.symm

theorem place_step (T P : List (Nat × Nat)) (g p : Nat) (hg : g ≠ 0)
    (hinv : PlaceInv P T) (hroom : P.length < T.length) :
    PlaceInv (P ++ [(g, p)]) (placeRecord T (g, p)) := by
  have hL : 0 < T.length := by omega
  have hexcnt : 0 < T.countP (fun s => s.1 == 0) := by
    have := hinv.hcnt; omega
  have hex : ∃ s ∈ T, s.1 = 0 := by
    obtain ⟨s, hs, hq⟩ := List.countP_pos_iff.mp hexcnt
    exact ⟨s, hs, by simpa using hq⟩
  obtain ⟨t₀, ht₀L, ht₀z, heq, hridx⟩ := placeRecord_eq T g p hex hL
  have hc₀ : T.getD t₀ (0, 0) = (0, 0) := by
    have hmem : T.getD t₀ (0, 0) ∈ T := by
      rw [List.getD_eq_getElem _ _ ht₀L]
      exact List.getElem_mem _
    exact hinv.hzero _ hmem ht₀z
  rw [heq]
  have key : ∀ h : Nat, h ≠ 0 →
      (((probeSlots (T.set t₀ (g, p))
          ((h >>> 8) % (T.set t₀ (g, p)).length)).takeWhile
            (fun s => !(s.1 == 0))).filter (fun s => s.1 == h) =
        (P ++ [(g, p)]).filter (fun s => s.1 == h)) ∧
      (∀ s ∈ (probeSlots (T.set t₀ (g, p))
          ((h >>> 8) % (T.set t₀ (g, p)).length)).dropWhile
            (fun s => !(s.1 == 0)), s.1 ≠ h) := by
    intro h hh
    rw [List.length_set]
    set w := (h >>> 8) % T.length with hwdef
    have hwlt : w < T.length := Nat.mod_lt _ hL
    have hw : w ≤ T.length := le_of_lt hwlt
    have hps : probeSlots (T.set t₀ (g, p)) w =
        (probeSlots T w).set (ringIdx t₀ w T.length) (g, p) :=
      probeSlots_set T t₀ w (g, p) ht₀L hw
    set σ := ringIdx t₀ w T.length with hσdef
    have hσL : σ < T.length := ringIdx_lt _ _ _ ht₀L hw
    have hSlen : (probeSlots T w).length = T.length := probeSlots_length T w hw
    have hσz : (probeSlots T w).getD σ (0, 0) = (0, 0) := by
      rw [probeSlots_getD T w σ hw hσL,
          probeList_getD_ringIdx t₀ w T.length ht₀L hw, hc₀]
    set A := (probeSlots T w).takeWhile (fun s => !(s.1 == 0)) with hAdef
    set D := (probeSlots T w).dropWhile (fun s => !(s.1 == 0)) with hDdef
    have hAD : A ++ D = probeSlots T w := by
      rw [hAdef, hDdef]
      exact List.takeWhile_append_dropWhile _ _
    have hA_all : ∀ a ∈ A, (!(a.1 == 0)) = true := by
      intro a ha
      have := List.mem_takeWhile_imp ha
      simpa using this
    have hσA : ¬ (σ < A.length) := by
      intro hcon
      have hgetA : (probeSlots T w).getD σ (0, 0) = A.getD σ (0, 0) := by
        rw [← hAD]
        exact getD_append_left_lt A D σ (0, 0) hcon
      have hmemA : A.getD σ (0, 0) ∈ A := by
        rw [List.getD_eq_getElem _ _ hcon]
        exact List.getElem_mem _
      have := hA_all _ hmemA
      rw [← hgetA, hσz] at this
      simp at this
    have hADlen : A.length + D.length = T.length := by
      rw [← hSlen, ← hAD, List.length_append]
    obtain ⟨d₀, D', hD⟩ : ∃ d₀ D', D = d₀ :: D' := by
      cases hDc : D with
      | nil => rw [hDc] at hADlen; simp at hADlen; omega
      | cons d₀ D' => exact ⟨d₀, D', rfl⟩
    have hd₀ : d₀.1 = 0 := by
      have := dropWhile_head_false (fun s => !(s.1 == 0)) (probeSlots T w) d₀ D'
        (by rw [← hDdef, hD])
      simpa using this
    have holdtake : A.filter (fun s => s.1 == h) = P.filter (fun s => s.1 == h) :=
      hinv.htake h hh
    have holddrop : ∀ s ∈ D, s.1 ≠ h := by
      intro s hs
      exact hinv.hdrop h hh s hs
    by_cases hσeq : σ = A.length
    · have hset : (probeSlots T w).set σ (g, p) = A ++ (g, p) :: D' := by
        rw [← hAD, hD, hσeq, List.set_append_right _ _ (le_refl _),
            Nat.sub_self, List.set_cons_zero]
      constructor
      · rw [hps, hset, takeWhile_append_all _ _ _ hA_all,
            List.takeWhile_cons_of_pos (by simp [hg]),
            List.filter_append, List.filter_cons, holdtake,
            List.filter_append, List.filter_cons]
        have hD'nil : (D'.takeWhile (fun s => !(s.1 == 0))).filter
            (fun s => s.1 == h) = [] := by
          rw [List.filter_eq_nil_iff]
          intro a ha
          have haD : a ∈ D := by
            rw [hD]
            exact List.mem_cons_of_mem _ ((List.takeWhile_sublist _).subset ha)
          simp [holddrop a haD]
        rw [hD'nil]
        simp
      · rw [hps, hset, dropWhile_append_all _ _ _ hA_all,
            List.dropWhile_cons, if_pos (by simp [hg])]
        intro s hs
        have hsD' : s ∈ D' := (List.dropWhile_sublist _).subset hs
        exact holddrop s (by rw [hD]; exact List.mem_cons_of_mem _ hsD')
    · have hσgt : A.length < σ := by omega
      have hgh : g ≠ h := by
        intro hgheq
        apply hσeq
        rw [hgheq] at hridx
        exact hridx
      have hk : σ - A.length = (σ - A.length - 1) + 1 := by omega
      have hset : (probeSlots T w).set σ (g, p) =
          A ++ d₀ :: D'.set (σ - A.length - 1) (g, p) := by
        rw [← hAD, hD, List.set_append_right _ _ (by omega), hk,
            List.set_cons_succ,
            show σ - A.length - 1 + 1 - 1 = σ - A.length - 1 from by omega]
      constructor
      · rw [hps, hset, takeWhile_append_all _ _ _ hA_all,
            List.takeWhile_cons_of_neg (by simp [hd₀]),
            List.append_nil, holdtake, List.filter_append, List.filter_cons,
            if_neg (by simp [hgh])]
        simp
      · rw [hps, hset, dropWhile_append_all _ _ _ hA_all,
            List.dropWhile_cons_of_neg (by simp [hd₀])]
        intro s hs
        rcases List.mem_cons.mp hs with rfl | hs'
        · rw [hd₀]
          exact fun he => hh he.symm
        · rcases List.mem_or_eq_of_mem_set hs' with hmem | rfl
          · exact holddrop s (by rw [hD]; exact List.mem_cons_of_mem _ hmem)
          · simpa using hgh
  constructor
  · intro s hs hs0
    rcases List.mem_or_eq_of_mem_set hs with hmem | rfl
    · exact hinv.hzero s hmem hs0
    · exact absurd hs0 hg
  · rw [List.length_set]
    have hcnt' := countP_set_zero (fun s => s.1 == 0) T t₀ (g, p) ht₀L
      (by rw [hc₀]; rfl) (by simp [hg])
    have := hinv.hcnt
    rw [List.length_append, List.length_cons, List.length_nil]
    omega
  · intro h hh
    exact (key h hh).1
  · intro h hh
    exact (key h hh).2

theorem place_fold (Q : List (Nat × Nat)) :
    ∀ (P T : List (Nat × Nat)), PlaceInv P T → (∀ s ∈ Q, s.1 ≠ 0) →
    P.length + Q.length ≤ T.length →
    PlaceInv (P ++ Q) (Q.foldl placeRecord T) := by
  induction Q with
  | nil => intro P T hinv _ _; simpa using hinv
  | cons s Q' ih =>
    intro P T hinv hQ hlen
    rw [List.foldl_cons]
    have hs1 : s.1 ≠ 0 := hQ s (List.mem_cons_self s Q')
    have hroom : P.length < T.length := by
      rw [List.length_cons] at hlen; omega
    have hstep : PlaceInv (P ++ [s]) (placeRecord T s) :=
      place_step T P s.1 s.2 hs1 hinv hroom
    have hlen' : (placeRecord T s).length = T.length := placeRecord_length T s
    have hres := ih (P ++ [s]) (placeRecord T s) hstep
      (fun x hx => hQ x (List.mem_cons_of_mem _ hx))
      (by rw [hlen', List.length_append, List.length_cons] at *; simp at *; omega)
    rw [List.append_assoc, List.singleton_append] at hres
    exact hres

theorem placeAll_inv (B : List (Nat × Nat)) (hB : ∀ s ∈ B, s.1 ≠ 0) :
    PlaceInv B (placeAll B) := by
  have hres := place_fold B [] (List.replicate (B.length * 2) (0, 0))
    (placeInv_start _) hB (by rw [List.length_replicate, List.length_nil]; omega)
  rw [List.nil_append] at hres
  exact hres

theorem placeRecord_mem (T : List (Nat × Nat)) (q : Nat × Nat) (s : Nat × Nat)
    (hs : s ∈ placeRecord T q) : s ∈ T ∨ s = q := by
  revert hs
  rw [placeRecord]
  cases hf : (List.range' ((q.1 >>> 8) % T.length)
      (T.length - (q.1 >>> 8) % T.length) ++
      List.range ((q.1 >>> 8) % T.length)).find?
      (fun i => (T.getD i (0, 0)).1 == 0) with
  | none => intro hs; exact Or.inl hs
  | some t =>
    intro hs
    exact List.mem_or_eq_of_mem_set hs

theorem foldl_placeRecord_mem (Q : List (Nat × Nat)) :
    ∀ (T : List (Nat × Nat)) (s : Nat × Nat), s ∈ Q.foldl placeRecord T →
    s ∈ T ∨ s ∈ Q := by
  induction Q with
  | nil => intro T s hs; exact Or.inl hs
  | cons q Q' ih =>
    intro T s hs
    rw [List.foldl_cons] at hs
    rcases ih _ s hs with hT | hQ
    · rcases placeRecord_mem T q s hT with hT' | rfl
      · exact Or.inl hT'
      · exact Or.inr (List.mem_cons_self _ _)
    · exact Or.inr (List.mem_cons_of_mem _ hQ)

theorem placeAll_mem (B : List (Nat × Nat)) (s : Nat × Nat)
    (hs : s ∈ placeAll B) : s = (0, 0) ∨ s ∈ B := by
  rw [placeAll] at hs
  rcases foldl_placeRecord_mem B _ s hs with hT | hB
  · exact Or.inl (List.eq_of_mem_replicate hT)
  · exact Or.inr hB

/-! ### From the probe loop over byte positions to slot contents -/

/-- The `(klen, dlen)` header fields read at offset `p` of the file. -/
def fileKlen (data : Bytes) (p : Nat) : Nat :=
  decodeLE ((slice data p 8).take 4)

/-- See `fileKlen`. -/
def fileDlen (data : Bytes) (p : Nat) : Nat :=
  decodeLE ((slice data p 8).drop 4)

/-- The key bytes of the record at offset `p`. -/
def fileKey (data : Bytes) (p : Nat) : Bytes :=
  slice data (p + 8) (fileKlen data p)

/-- The value bytes of the record at offset `p`. -/
def fileVal (data : Bytes) (p : Nat) : Bytes :=
  slice data (p + 8 + fileKlen data p) (fileDlen data p)

/-- The probe loop of `gets`, abstracted over the slot contents it reads
(the record reads still go through the file). -/
def procSlots (data : Bytes) (h : Nat) (key : Bytes) :
    List (Nat × Nat) → Except ReadErr (List Bytes)
  | [] => .ok []
  | s :: rest =>
    if s.1 = 0 then .ok []
    else if s.1 = h then
      match readPairE 8 (slice data s.2 8) with
      | .error e => .error e
      | .ok (klen, dlen) =>
        if slice data (s.2 + 8) klen = key then
          match procSlots data h key rest with
          | .error e => .error e
          | .ok vs => .ok (slice data (s.2 + 8 + klen) dlen :: vs)
        else procSlots data h key rest
    else procSlots data h key rest

theorem getsLoop_eq_procSlots (data : Bytes) (h : Nat) (key : Bytes)
    (off : Nat) (T : List (Nat × Nat))
    (hread : ∀ t, t < T.length →
      readPairE 8 (slice data (off + 8 * t) 8) = .ok (T.getD t (0, 0))) :
    ∀ (ts : List Nat), (∀ t ∈ ts, t < T.length) →
    getsLoop data 8 h key (ts.map (fun t => off + 8 * t)) =
      procSlots data h key (ts.map (fun t => T.getD t (0, 0))) := by
  intro ts
  induction ts with
  | nil => intro _; rfl
  | cons t ts' ih =>
    intro hts
    have hih := ih (fun x hx => hts x (List.mem_cons_of_mem _ hx))
    have hrd := hread t (hts t (List.mem_cons_self _ _))
    rw [List.map_cons, List.map_cons, getsLoop, procSlots, hrd, hih]

theorem procSlots_takeWhile (data : Bytes) (h : Nat) (key : Bytes)
    (S : List (Nat × Nat)) :
    procSlots data h key S =
      procSlots data h key (S.takeWhile (fun s => !(s.1 == 0))) := by
  induction S with
  | nil => rfl
  | cons s rest ih =>
    by_cases hs0 : s.1 = 0
    · rw [procSlots, if_pos hs0, List.takeWhile_cons_of_neg (by simp [hs0]),
          procSlots]
    · rw [List.takeWhile_cons_of_pos (by simp [hs0]), procSlots, procSlots,
          if_neg hs0, if_neg hs0, ih]

theorem procSlots_zero (data : Bytes) (key : Bytes) (S : List (Nat × Nat)) :
    procSlots data 0 key S = .ok [] := by
  induction S with
  | nil => rfl
  | cons s rest ih =>
    rw [procSlots]
    by_cases hs0 : s.1 = 0
    · rw [if_pos hs0]
    · rw [if_neg hs0, if_neg hs0, ih]

theorem readPairE_ok_elim (bs : Bytes) (a b : Nat)
    (h : readPairE 8 bs = .ok (a, b)) :
    bs.length = 8 ∧ decodeLE (bs.take 4) = a ∧ decodeLE (bs.drop 4) = b := by
  rw [readPairE] at h
  by_cases hlen : bs.length = 8
  · rw [if_pos hlen] at h
    have := Except.ok.inj h
    refine ⟨hlen, ?_, ?_⟩
    · rw [show (8 : Nat) / 2 = 4 from rfl] at this
      exact (Prod.mk.injEq .. ▸ this).1
    · rw [show (8 : Nat) / 2 = 4 from rfl] at this
      exact (Prod.mk.injEq .. ▸ this).2
  · rw [if_neg hlen] at h
    cases h

theorem procSlots_ok (data : Bytes) (h : Nat) (key : Bytes)
    (S : List (Nat × Nat))
    (hne : ∀ s ∈ S, s.1 ≠ 0)
    (hrd : ∀ s ∈ S, s.1 = h → (slice data s.2 8).length = 8) :
    procSlots data h key S = .ok (S.filterMap (fun s =>
      if s.1 = h then
        (if fileKey data s.2 = key then some (fileVal data s.2) else none)
      else none)) := by
  induction S with
  | nil => rfl
  | cons s rest ih =>
    have hih := ih (fun x hx => hne x (List.mem_cons_of_mem _ hx))
      (fun x hx => hrd x (List.mem_cons_of_mem _ hx))
    rw [procSlots, List.filterMap_cons,
        if_neg (hne s (List.mem_cons_self _ _))]
    by_cases hsh : s.1 = h
    · rw [if_pos hsh, if_pos hsh]
      rw [readPairE, if_pos (hrd s (List.mem_cons_self _ _) hsh),
          show (8 : Nat) / 2 = 4 from rfl]
      show (if slice data (s.2 + 8) (fileKlen data s.2) = key then _ else _) = _
      by_cases hkey : fileKey data s.2 = key
      · rw [if_pos (by rw [← fileKey]; exact hkey), if_pos hkey, hih]
        rfl
      · rw [if_neg (by rw [← fileKey]; exact hkey), if_neg hkey, hih]
    · rw [if_neg hsh, if_neg hsh, hih]

theorem filterMap_eq_filter_filterMap {α β : Type} (l : List α)
    (f : α → Option β) (q : α → Bool) (hq : ∀ a, q a = false → f a = none) :
    l.filterMap f = (l.filter q).filterMap f := by
  induction l with
  | nil => rfl
  | cons a l' ih =>
    cases hqa : q a with
    | true => rw [List.filterMap_cons, List.filter_cons_of_pos hqa,
        List.filterMap_cons, ih]
    | false =>
      rw [List.filterMap_cons, hq a hqa, List.filter_cons_of_neg (by simp [hqa]),
          ih]

/-! ### Bucket and layout membership -/

theorem bucketOf_mem (recs : List (Nat × Bytes × Bytes)) (i : Nat)
    (s : Nat × Nat) (hs : s ∈ bucketOf recs i) :
    ∃ kr vr, (s.2, kr, vr) ∈ recs ∧ s.1 = py_djb_hash kr ∧
      py_djb_hash kr &&& 0xff = i := by
  rw [bucketOf] at hs
  obtain ⟨r, hr, hrs⟩ := List.mem_filterMap.mp hs
  by_cases hcond : py_djb_hash r.2.1 &&& 0xff = i
  · rw [if_pos hcond] at hrs
    cases hrs with
    | refl => exact ⟨r.2.1, r.2.2, by simpa using hr, rfl, hcond⟩
  · rw [if_neg hcond] at hrs
    cases hrs

theorem bucketOf_intro (recs : List (Nat × Bytes × Bytes)) (p : Nat)
    (kr vr : Bytes) (hmem : (p, kr, vr) ∈ recs) :
    (py_djb_hash kr, p) ∈ bucketOf recs (py_djb_hash kr &&& 0xff) := by
  rw [bucketOf]
  exact List.mem_filterMap.mpr ⟨(p, kr, vr), hmem, by rw [if_pos rfl]⟩

theorem layout_mem_of_kvs (kvs : List (Bytes × Bytes)) :
    ∀ (q : Nat) (kv : Bytes × Bytes), kv ∈ kvs →
    ∃ p, (p, kv.1, kv.2) ∈ layout q kvs := by
  induction kvs with
  | nil => intro q kv h; cases h
  | cons kv0 rest ih =>
    intro q kv h
    rcases List.mem_cons.mp h with rfl | h'
    · exact ⟨q, by rw [layout]; exact List.mem_cons_self _ _⟩
    · obtain ⟨p, hp⟩ := ih (q + (encodeRecord kv0).length) kv h'
      exact ⟨p, by rw [layout]; exact List.mem_cons_of_mem _ hp⟩

theorem layout_snd_mem (kvs : List (Bytes × Bytes)) :
    ∀ (q : Nat) (r : Nat × Bytes × Bytes), r ∈ layout q kvs → r.2 ∈ kvs := by
  induction kvs with
  | nil => intro q r hr; cases hr
  | cons kv rest ih =>
    intro q r hr
    rw [layout] at hr
    rcases List.mem_cons.mp hr with rfl | hr'
    · exact List.mem_cons_self _ _
    · exact List.mem_cons_of_mem _ (ih _ r hr')

theorem layout_pos_lt (kvs : List (Bytes × Bytes)) (p : Nat) (kr vr : Bytes)
    (hmem : (p, kr, vr) ∈ layout 2048 kvs) :
    p + 8 ≤ 2048 + (encodeRecs kvs).length := by
  obtain ⟨X, Y, hdec, hpos⟩ := layout_mem_decomp kvs 2048 p kr vr hmem
  have h1 : (encodeRecs kvs).length =
      X.length + ((encodeRecord (kr, vr)).length + Y.length) := by
    rw [hdec]; simp
  have h2 : (encodeRecord (kr, vr)).length = 8 + kr.length + vr.length :=
    encodeRecord_length _
  omega

theorem layout_filterMap_proj {γ : Type} (kvs : List (Bytes × Bytes))
    (f : Bytes × Bytes → Option γ) :
    ∀ q, (layout q kvs).filterMap (fun r => f r.2) = kvs.filterMap f := by
  induction kvs with
  | nil => intro q; rfl
  | cons kv rest ih =>
    intro q
    rw [layout, List.filterMap_cons, List.filterMap_cons]
    cases f kv with
    | none => exact ih _
    | some c => rw [ih _]

/-- The consequences of `record_reads` for the total read helpers. -/
theorem record_reads_file (kvs : List (Bytes × Bytes))
    (hsize : totalSize kvs < 4294967296)
    (p : Nat) (kr vr : Bytes) (hmem : (p, kr, vr) ∈ layout 2048 kvs) :
    (slice (fileOf kvs) p 8).length = 8 ∧
    fileKey (fileOf kvs) p = kr ∧ fileVal (fileOf kvs) p = vr := by
  obtain ⟨hr1, hr2, hr3⟩ := record_reads kvs hsize p kr vr hmem
  obtain ⟨hlen, hk, hd⟩ := readPairE_ok_elim _ _ _ hr1
  have hfk : fileKlen (fileOf kvs) p = kr.length := hk
  have hfd : fileDlen (fileOf kvs) p = vr.length := hd
  refine ⟨hlen, ?_, ?_⟩
  · rw [fileKey, hfk]; exact hr2
  · rw [fileVal, hfk, hfd]; exact hr3

/-! ### Slot-table reads -/

theorem tablesFor_append (bk : Nat → List (Nat × Nat)) (l1 l2 : List Nat) :
    tablesFor bk (l1 ++ l2) = tablesFor bk l1 ++ tablesFor bk l2 := by
  simp [tablesFor]

theorem range_split (i : Nat) (hi : i < 256) :
    List.range 256 = List.range i ++ i :: List.range' (i + 1) (255 - i) := by
  rw [List.range_eq_range', List.range_eq_range']
  rw [show (256 : Nat) = (256 - i) + i from by omega, ← List.range'_append_1,
      Nat.zero_add]
  refine congrArg (fun l => List.range' 0 i ++ l) ?_
  rw [show 256 - i = (255 - i) + 1 from by omega, List.range'_succ]

/-- The byte offset at which bucket `i`'s slot table begins. -/
def tableOff (kvs : List (Bytes × Bytes)) (i : Nat) : Nat :=
  2048 + (encodeRecs kvs).length +
    16 * (((List.range i).map (fun m => (bucketsOf kvs m).length)).sum)

theorem table_decomp (kvs : List (Bytes × Bytes)) (i : Nat) (hi : i < 256) :
    fileOf kvs =
      (writeSlots (indexOf kvs) ++
        (encodeRecs kvs ++ tablesFor (bucketsOf kvs) (List.range i))) ++
      (writeSlots (placeAll (bucketsOf kvs i)) ++
        tablesFor (bucketsOf kvs) (List.range' (i + 1) (255 - i))) ∧
    (writeSlots (indexOf kvs) ++
        (encodeRecs kvs ++ tablesFor (bucketsOf kvs) (List.range i))).length =
      tableOff kvs i := by
  constructor
  · rw [fileOf, range_split i hi, tablesFor_append, tablesFor_cons]
    simp [List.append_assoc]
  · rw [List.length_append, List.length_append, writeSlots_length,
        indexOf_length, tablesFor_length, tableOff]
    ring

theorem slot_reads (kvs : List (Bytes × Bytes))
    (hsize : totalSize kvs < 4294967296) (i : Nat) (hi : i < 256) :
    ∀ t, t < (placeAll (bucketsOf kvs i)).length →
    readPairE 8 (slice (fileOf kvs) (tableOff kvs i + 8 * t) 8) =
      .ok ((placeAll (bucketsOf kvs i)).getD t (0, 0)) := by
  intro t ht
  obtain ⟨hdec, hlen⟩ := table_decomp kvs i hi
  have hslice : slice (fileOf kvs) (tableOff kvs i + 8 * t) 8 =
      writePair ((placeAll (bucketsOf kvs i)).getD t (0, 0)).1
        ((placeAll (bucketsOf kvs i)).getD t (0, 0)).2 := by
    rw [hdec, ← hlen]
    exact slice_writeSlots _ _ _ t ht
  rw [hslice]
  have hentry : (placeAll (bucketsOf kvs i)).getD t (0, 0) = (0, 0) ∨
      (placeAll (bucketsOf kvs i)).getD t (0, 0) ∈ bucketsOf kvs i := by
    apply placeAll_mem
    rw [List.getD_eq_getElem _ _ ht]
    exact List.getElem_mem _
  rcases hentry with hz | hmem
  · rw [hz]
    exact readPairE_writePair 0 0 (by norm_num) (by norm_num)
  · obtain ⟨kr, vr, hrec, hhash, _⟩ := bucketOf_mem _ _ _ hmem
    apply readPairE_writePair
    · rw [hhash]; exact py_djb_hash_lt kr
    · have := layout_pos_lt kvs _ kr vr hrec
      rw [totalSize] at hsize
      omega

/-! ### The reader over a built file, and the gets theorem -/

/-- The reader `mkReader` constructs over a built file. -/
def readerOf (kvs : List (Bytes × Bytes)) : Reader :=
  { data := fileOf kvs, hashfn := py_djb_hash, variant := .v32,
    index := indexOf kvs,
    table_start := 2048 + (encodeRecs kvs).length,
    length := kvs.length }

theorem mkReader_readerOf (kvs : List (Bytes × Bytes))
    (hsize : totalSize kvs < 4294967296) :
    mkReader (fileOf kvs) = .ok (readerOf kvs) :=
  mkReader_fileOf kvs hsize

theorem iteritems_readerOf (kvs : List (Bytes × Bytes))
    (hsize : totalSize kvs < 4294967296) :
    (readerOf kvs).iteritems = .ok kvs :=
  iteritems_fileOf kvs hsize

theorem probe_positions (off L w : Nat) (hwL : w < L) :
    xrangeL (off + w * 8) (off + L * 8) 8 ++ xrangeL off (off + w * 8) 8 =
      (probeList w L).map (fun t => off + 8 * t) := by
  have h1 : off + L * 8 = (off + w * 8) + 8 * (L - w) := by omega
  rw [h1, xrangeL_eq _ _ _ (by norm_num)]
  have h2 : off + w * 8 = off + 8 * w := by omega
  rw [h2, xrangeL_eq _ _ _ (by norm_num)]
  rw [probeList, List.map_append]
  refine congrArg₂ (· ++ ·) ?_ ?_
  · rw [range'_eq_map, range'_eq_map, List.map_map]
    apply List.map_congr_left
    intro j _
    simp only [Function.comp_apply]
    omega
  · rw [range'_eq_map, List.range_eq_range', range'_eq_map, List.map_map]

theorem bucketOf_filter (recs : List (Nat × Bytes × Bytes)) (h : Nat) :
    (bucketOf recs (h &&& 0xff)).filter (fun s => s.1 == h) =
      recs.filterMap (fun r =>
        if py_djb_hash r.2.1 = h then some (py_djb_hash r.2.1, r.1) else none) := by
  rw [bucketOf, List.filter_filterMap]
  apply List.filterMap_congr
  intro r _
  by_cases hrh : py_djb_hash r.2.1 = h
  · rw [if_pos hrh, hrh, if_pos rfl]
    simp [Option.filter]
  · rw [if_neg hrh]
    by_cases hcond : py_djb_hash r.2.1 &&& 0xff = h &&& 0xff
    · rw [if_pos hcond]
      simp [Option.filter, hrh]
    · rw [if_neg hcond]
      rfl

theorem gets_readerOf (kvs : List (Bytes × Bytes))
    (hsize : totalSize kvs < 4294967296)
    (hnz : ∀ kv ∈ kvs, py_djb_hash kv.1 ≠ 0)
    (key : Bytes)
    (hkey : py_djb_hash key ≠ 0 ∨ ∀ kv ∈ kvs, kv.1 ≠ key) :
    (readerOf kvs).gets key =
      .ok (kvs.filterMap (fun kv => if kv.1 = key then some kv.2 else none)) := by
  have hmask : py_djb_hash key &&& 0xffffffff = py_djb_hash key :=
    py_djb_hash_mask key
  have hi256 : py_djb_hash key &&& 0xff < 256 := mask8_lt _
  have hgetD : (indexOf kvs).getD (py_djb_hash key &&& 0xff) (0, 0) =
      (tableOff kvs (py_djb_hash key &&& 0xff),
       (bucketsOf kvs (py_djb_hash key &&& 0xff)).length * 2) := by
    rw [indexOf_getD_spec kvs _ hi256, tableOff]
  have hkeybucket : ∀ kv ∈ kvs, kv.1 = key →
      ∃ p, (py_djb_hash key, p) ∈ bucketsOf kvs (py_djb_hash key &&& 0xff) := by
    intro kv hkv hk
    obtain ⟨p, hp⟩ := layout_mem_of_kvs kvs 2048 kv hkv
    rw [hk] at hp
    exact ⟨p, bucketOf_intro _ p key kv.2 hp⟩
  rw [show (readerOf kvs).gets key =
      (if ((indexOf kvs).getD
            ((py_djb_hash key &&& 0xffffffff) &&& 0xff) (0, 0)).2 = 0 then
        Except.ok []
      else
        getsLoop (fileOf kvs) 8 (py_djb_hash key &&& 0xffffffff) key
          (xrangeL
            (((indexOf kvs).getD ((py_djb_hash key &&& 0xffffffff) &&& 0xff) (0, 0)).1 +
              (((py_djb_hash key &&& 0xffffffff) >>> 8) %
                ((indexOf kvs).getD ((py_djb_hash key &&& 0xffffffff) &&& 0xff) (0, 0)).2) * 8)
            (((indexOf kvs).getD ((py_djb_hash key &&& 0xffffffff) &&& 0xff) (0, 0)).1 +
              ((indexOf kvs).getD ((py_djb_hash key &&& 0xffffffff) &&& 0xff) (0, 0)).2 * 8) 8 ++
          xrangeL ((indexOf kvs).getD ((py_djb_hash key &&& 0xffffffff) &&& 0xff) (0, 0)).1
            (((indexOf kvs).getD ((py_djb_hash key &&& 0xffffffff) &&& 0xff) (0, 0)).1 +
              (((py_djb_hash key &&& 0xffffffff) >>> 8) %
                ((indexOf kvs).getD ((py_djb_hash key &&& 0xffffffff) &&& 0xff) (0, 0)).2) * 8) 8))
      from rfl]
  rw [hmask, hgetD]
  by_cases hB : (bucketsOf kvs (py_djb_hash key &&& 0xff)).length * 2 = 0
  · rw [if_pos hB]
    refine congrArg Except.ok ?_
    symm
    rw [List.filterMap_eq_nil_iff]
    intro kv hkv
    rw [if_neg]
    intro hk
    obtain ⟨p, hp⟩ := hkeybucket kv hkv hk
    have : (bucketsOf kvs (py_djb_hash key &&& 0xff)).length ≠ 0 := by
      intro hzero
      rw [List.length_eq_zero.mp hzero] at hp
      cases hp
    omega
  · rw [if_neg hB]
    have hTlen : (placeAll (bucketsOf kvs (py_djb_hash key &&& 0xff))).length =
        (bucketsOf kvs (py_djb_hash key &&& 0xff)).length * 2 :=
      placeAll_length _
    have hwlt : (py_djb_hash key >>> 8) %
        ((bucketsOf kvs (py_djb_hash key &&& 0xff)).length * 2) <
        (bucketsOf kvs (py_djb_hash key &&& 0xff)).length * 2 :=
      Nat.mod_lt _ (by omega)
    rw [probe_positions _ _ _ hwlt]
    rw [getsLoop_eq_procSlots (fileOf kvs) (py_djb_hash key) key
        (tableOff kvs (py_djb_hash key &&& 0xff))
        (placeAll (bucketsOf kvs (py_djb_hash key &&& 0xff)))
        (fun t ht => slot_reads kvs hsize _ hi256 t ht)
        _
        (fun t ht => by
          rw [hTlen]
          exact (probeList_mem _ _ t (by omega)).mp ht)]
    rw [show ((probeList
          ((py_djb_hash key >>> 8) %
            ((bucketsOf kvs (py_djb_hash key &&& 0xff)).length * 2))
          ((bucketsOf kvs (py_djb_hash key &&& 0xff)).length * 2)).map
        (fun t => (placeAll (bucketsOf kvs (py_djb_hash key &&& 0xff))).getD t (0, 0))) =
        probeSlots (placeAll (bucketsOf kvs (py_djb_hash key &&& 0xff)))
          ((py_djb_hash key >>> 8) %
            ((bucketsOf kvs (py_djb_hash key &&& 0xff)).length * 2)) from by
      rw [probeSlots, hTlen]]
    by_cases hz : py_djb_hash key = 0
    · rw [hz, procSlots_zero]
      refine congrArg Except.ok ?_
      symm
      rw [List.filterMap_eq_nil_iff]
      intro kv hkv
      rcases hkey with hkey | hkey
      · exact absurd hz hkey
      · rw [if_neg (hkey kv hkv)]
    · have hBnz : ∀ s ∈ bucketsOf kvs (py_djb_hash key &&& 0xff), s.1 ≠ 0 := by
        intro s hs
        obtain ⟨kr, vr, hrec, hhash, _⟩ := bucketOf_mem _ _ _ hs
        rw [hhash]
        have hkrmem : (kr, vr) ∈ kvs := layout_snd_mem kvs 2048 _ hrec
        exact hnz (kr, vr) hkrmem
      have hinv := placeAll_inv _ hBnz
      rw [procSlots_takeWhile]
      have htake := hinv.htake (py_djb_hash key) hz
      rw [hTlen] at htake
      have hA_ne : ∀ s ∈ (probeSlots
          (placeAll (bucketsOf kvs (py_djb_hash key &&& 0xff)))
          ((py_djb_hash key >>> 8) %
            ((bucketsOf kvs (py_djb_hash key &&& 0xff)).length * 2))).takeWhile
          (fun s => !(s.1 == 0)), s.1 ≠ 0 := by
        intro s hs
        have := List.mem_takeWhile_imp hs
        simpa using this
      have hA_rd : ∀ s ∈ (probeSlots
          (placeAll (bucketsOf kvs (py_djb_hash key &&& 0xff)))
          ((py_djb_hash key >>> 8) %
            ((bucketsOf kvs (py_djb_hash key &&& 0xff)).length * 2))).takeWhile
          (fun s => !(s.1 == 0)), s.1 = py_djb_hash key →
          (slice (fileOf kvs) s.2 8).length = 8 := by
        intro s hs hsh
        have hsPS : s ∈ probeSlots
            (placeAll (bucketsOf kvs (py_djb_hash key &&& 0xff)))
            ((py_djb_hash key >>> 8) %
              ((bucketsOf kvs (py_djb_hash key &&& 0xff)).length * 2)) :=
          (List.takeWhile_sublist _).subset hs
        have hsT : s ∈ placeAll (bucketsOf kvs (py_djb_hash key &&& 0xff)) := by
          rcases probeSlots_mem _ _ (by rw [hTlen]; omega) s hsPS with hmem | hnil
          · exact hmem
          · exfalso
            rw [hnil, List.length_nil] at hTlen
            omega
        rcases placeAll_mem _ s hsT with rfl | hmem
        · exact absurd hsh.symm hz
        · obtain ⟨kr, vr, hrec, _, _⟩ := bucketOf_mem _ _ _ hmem
          exact (record_reads_file kvs hsize s.2 kr vr hrec).1
      rw [procSlots_ok _ _ _ _ hA_ne hA_rd]
      refine congrArg Except.ok ?_
      rw [filterMap_eq_filter_filterMap _ _ (fun s => s.1 == py_djb_hash key)
        (fun a ha => by rw [if_neg (by simpa using ha)])]
      rw [htake]
      rw [show (bucketsOf kvs (py_djb_hash key &&& 0xff)) =
          bucketOf (layout 2048 kvs) (py_djb_hash key &&& 0xff) from rfl]
      rw [bucketOf_filter, List.filterMap_filterMap]
      rw [← layout_filterMap_proj kvs
        (fun kv => if kv.1 = key then some kv.2 else none) 2048]
      apply List.filterMap_congr
      intro r hr
      obtain ⟨p, kr, vr⟩ := r
      obtain ⟨_, hfk, hfv⟩ := record_reads_file kvs hsize p kr vr hr
      by_cases hrh : py_djb_hash kr = py_djb_hash key
      · simp only [if_pos hrh, Option.some_bind, hrh, if_true, hfk, hfv]
      · simp only [if_neg hrh, Option.none_bind]
        rw [if_neg (fun hk => hrh (by rw [hk]))]

/-- A key whose canonical hash is literally zero is unfindable: the probe
loop reads a slot, and a stored hash of `0` — which is all it could match —
terminates the walk before the match arm can fire. -/
theorem gets_readerOf_zero (kvs : List (Bytes × Bytes))
    (hsize : totalSize kvs < 4294967296)
    (key : Bytes) (hz : py_djb_hash key = 0) :
    (readerOf kvs).gets key = .ok [] := by
  have hmask : py_djb_hash key &&& 0xffffffff = py_djb_hash key :=
    py_djb_hash_mask key
  have hi256 : py_djb_hash key &&& 0xff < 256 := mask8_lt _
  have hgetD : (indexOf kvs).getD (py_djb_hash key &&& 0xff) (0, 0) =
      (tableOff kvs (py_djb_hash key &&& 0xff),
       (bucketsOf kvs (py_djb_hash key &&& 0xff)).length * 2) := by
    rw [indexOf_getD_spec kvs _ hi256, tableOff]
  rw [show (readerOf kvs).gets key =
      (if ((indexOf kvs).getD
            ((py_djb_hash key &&& 0xffffffff) &&& 0xff) (0, 0)).2 = 0 then
        Except.ok []
      else
        getsLoop (fileOf kvs) 8 (py_djb_hash key &&& 0xffffffff) key
          (xrangeL
            (((indexOf kvs).getD ((py_djb_hash key &&& 0xffffffff) &&& 0xff) (0, 0)).1 +
              (((py_djb_hash key &&& 0xffffffff) >>> 8) %
                ((indexOf kvs).getD ((py_djb_hash key &&& 0xffffffff) &&& 0xff) (0, 0)).2) * 8)
            (((indexOf kvs).getD ((py_djb_hash key &&& 0xffffffff) &&& 0xff) (0, 0)).1 +
              ((indexOf kvs).getD ((py_djb_hash key &&& 0xffffffff) &&& 0xff) (0, 0)).2 * 8) 8 ++
          xrangeL ((indexOf kvs).getD ((py_djb_hash key &&& 0xffffffff) &&& 0xff) (0, 0)).1
            (((indexOf kvs).getD ((py_djb_hash key &&& 0xffffffff) &&& 0xff) (0, 0)).1 +
              (((py_djb_hash key &&& 0xffffffff) >>> 8) %
                ((indexOf kvs).getD ((py_djb_hash key &&& 0xffffffff) &&& 0xff) (0, 0)).2) * 8) 8))
      from rfl]
  rw [hmask, hgetD]
  by_cases hB : (bucketsOf kvs (py_djb_hash key &&& 0xff)).length * 2 = 0
  · rw [if_pos hB]
  · rw [if_neg hB]
    have hTlen : (placeAll (bucketsOf kvs (py_djb_hash key &&& 0xff))).length =
        (bucketsOf kvs (py_djb_hash key &&& 0xff)).length * 2 :=
      placeAll_length _
    have hwlt : (py_djb_hash key >>> 8) %
        ((bucketsOf kvs (py_djb_hash key &&& 0xff)).length * 2) <
        (bucketsOf kvs (py_djb_hash key &&& 0xff)).length * 2 :=
      Nat.mod_lt _ (by omega)
    rw [probe_positions _ _ _ hwlt]
    rw [getsLoop_eq_procSlots (fileOf kvs) (py_djb_hash key) key
        (tableOff kvs (py_djb_hash key &&& 0xff))
        (placeAll (bucketsOf kvs (py_djb_hash key &&& 0xff)))
        (fun t ht => slot_reads kvs hsize _ hi256 t ht)
        _
        (fun t ht => by
          rw [hTlen]
          exact (probeList_mem _ _ t (by omega)).mp ht)]
    rw [hz, procSlots_zero]

/-- `get` over a built file, stated through `gets`. -/
theorem get_readerOf_eq (kvs : List (Bytes × Bytes)) (key : Bytes)
    (d : Option Bytes) (vs : List Bytes)
    (hgets : (readerOf kvs).gets key = .ok vs) :
    (readerOf kvs).get key d = .ok (vs.head?.elim d some) := by
  cases vs with
  | nil => rw [Reader.get, hgets]; rfl
  | cons v vs' => rw [Reader.get, hgets]; rfl

/-! ### Counting empty slots (load factor) -/

theorem countP_set_ge (q : Nat × Nat → Bool) :
    ∀ (T : List (Nat × Nat)) (t : Nat) (x : Nat × Nat),
    T.countP q ≤ (T.set t x).countP q + 1 := by
  intro T
  induction T with
  | nil => intro t x; simp
  | cons a T' ih =>
    intro t x
    cases t with
    | zero =>
      rw [List.set_cons_zero, List.countP_cons, List.countP_cons]
      have := ih 0 x
      by_cases hqa : q a = true <;> by_cases hqx : q x = true <;>
        simp [hqa, hqx] <;> omega
    | succ t' =>
      rw [List.set_cons_succ, List.countP_cons, List.countP_cons]
      have := ih t' x
      omega

theorem placeRecord_countP_ge (q : Nat × Nat → Bool) (T : List (Nat × Nat))
    (pair : Nat × Nat) :
    T.countP q ≤ (placeRecord T pair).countP q + 1 := by
  rw [placeRecord]
  cases hf : (List.range' ((pair.1 >>> 8) % T.length)
      (T.length - (pair.1 >>> 8) % T.length) ++
      List.range ((pair.1 >>> 8) % T.length)).find?
      (fun i => (T.getD i (0, 0)).1 == 0) with
  | none =>
    show T.countP q ≤ T.countP q + 1
    omega
  | some t => exact countP_set_ge q T t pair

theorem foldl_placeRecord_countP (q : Nat × Nat → Bool) (B : List (Nat × Nat)) :
    ∀ (T : List (Nat × Nat)),
    T.countP q ≤ (B.foldl placeRecord T).countP q + B.length := by
  induction B with
  | nil => intro T; simp
  | cons b B' ih =>
    intro T
    rw [List.foldl_cons, List.length_cons]
    have h1 := placeRecord_countP_ge q T b
    have h2 := ih (placeRecord T b)
    omega

theorem countP_replicate_empty (n : Nat) :
    (List.replicate n ((0 : Nat), (0 : Nat))).countP
      (fun s => decide (s = (0, 0))) = n := by
  have hall : ∀ a ∈ List.replicate n ((0 : Nat), (0 : Nat)),
      (decide (a = ((0 : Nat), (0 : Nat)))) = true := by
    intro a ha
    rw [List.eq_of_mem_replicate ha]
    simp
  rw [List.countP_eq_length.mpr hall, List.length_replicate]

/-! ### Finalize bookkeeping for double-finalize -/

theorem finalize_snd (w : Writer) (out : Bytes) (w' : Writer)
    (h : w.finalize = some (out, w')) : w' = { w with fp := none } := by
  cases hfp : w.fp with
  | none => rw [Writer.finalize, hfp] at h; cases h
  | some d =>
    rw [Writer.finalize, hfp] at h
    have h2 := congrArg Prod.snd (Option.some.inj h)
    exact h2.symm

theorem finalize_init_eq :
    Writer.init.finalize =
      some (fileOf [],
        { fp := none,
          hashfn := py_djb_hash,
          unordered := fun _ => [] }) := by
  have h : (Writer.init.finalize).map Prod.fst = some (fileOf []) := buildCDB_eq []
  cases hfin : Writer.init.finalize with
  | none => rw [hfin] at h; cases h
  | some pair =>
    rw [hfin] at h
    have h1 : pair.1 = fileOf [] := Option.some.inj h
    have h2 : pair.2 = { Writer.init with fp := none } :=
      finalize_snd Writer.init pair.1 pair.2 (by rw [hfin])
    rw [show pair = (pair.1, pair.2) from rfl, h1, h2]
    rfl

/-! ### Reader-construction success and failure -/

theorem mapExcept_error (f : α → Except ReadErr β) (e : ReadErr) :
    ∀ (l1 : List α) (x : α) (l2 : List α),
    (∀ y ∈ l1, ∃ b, f y = .ok b) → f x = .error e →
    mapExcept f (l1 ++ x :: l2) = .error e := by
  intro l1
  induction l1 with
  | nil =>
    intro x l2 _ hx
    rw [List.nil_append, mapExcept, hx]
  | cons y l1' ih =>
    intro x l2 h1 hx
    obtain ⟨b, hb⟩ := h1 y (List.mem_cons_self _ _)
    rw [List.cons_append, mapExcept, hb,
        ih x l2 (fun z hz => h1 z (List.mem_cons_of_mem _ hz)) hx]

theorem pairSize_ge (v : Variant) : 8 ≤ pairSize v := by
  cases v <;> simp [pairSize]

theorem mkReaderAux_small (v : Variant) (data : Bytes) (hashfn : Bytes → Nat)
    (h : data.length < 2048) :
    mkReaderAux v data hashfn = .error .cdbTooSmall := by
  simp only [mkReaderAux]
  rw [if_pos h]

theorem xrangeL_index (v : Variant) :
    xrangeL 0 (256 * pairSize v) (pairSize v) =
      (List.range 256).map (fun j => 0 + pairSize v * j) := by
  rw [show 256 * pairSize v = 0 + pairSize v * 256 from by omega,
      xrangeL_eq 0 256 (pairSize v) (by have := pairSize_ge v; omega),
      range'_eq_map]

theorem mkReaderAux_ok_of_le (v : Variant) (data : Bytes) (hashfn : Bytes → Nat)
    (hlen : 256 * pairSize v ≤ data.length) :
    ∃ r, mkReaderAux v data hashfn = .ok r := by
  have hps := pairSize_ge v
  simp only [mkReaderAux]
  rw [if_neg (by omega), xrangeL_index, mapExcept_map]
  rw [mapExcept_ok _ (fun j =>
      (decodeLE ((slice data (0 + pairSize v * j) (pairSize v)).take (pairSize v / 2)),
       decodeLE ((slice data (0 + pairSize v * j) (pairSize v)).drop (pairSize v / 2)))) _
    (fun j hj => by
      have hj' : j < 256 := List.mem_range.mp hj
      rw [readPairE, if_pos]
      rw [slice_length]
      have : pairSize v * j + pairSize v ≤ 256 * pairSize v := by
        have : j + 1 ≤ 256 := hj'
        calc pairSize v * j + pairSize v = pairSize v * (j + 1) := by ring
          _ ≤ pairSize v * 256 := Nat.mul_le_mul_left _ hj'
          _ = 256 * pairSize v := by ring
      omega)]
  exact ⟨_, rfl⟩

theorem mkReaderAux_structError (v : Variant) (data : Bytes)
    (hashfn : Bytes → Nat) (h2048 : ¬ data.length < 2048)
    (j : Nat) (hj : j < 256) (hjlo : pairSize v * j ≤ data.length)
    (hjhi : data.length < pairSize v * j + pairSize v) :
    mkReaderAux v data hashfn = .error .structError := by
  have hps := pairSize_ge v
  simp only [mkReaderAux]
  rw [if_neg h2048, xrangeL_index, mapExcept_map, range_split j hj]
  have herr : mapExcept
      (fun x => readPairE (pairSize v) (slice data (0 + pairSize v * x) (pairSize v)))
      (List.range j ++ j :: List.range' (j + 1) (255 - j)) =
      .error .structError := by
    apply mapExcept_error _ .structError (List.range j) j _
    · intro y hy
      have hy' : y < j := List.mem_range.mp hy
      have hle : pairSize v * y + pairSize v ≤ pairSize v * j := by
        calc pairSize v * y + pairSize v = pairSize v * (y + 1) := by ring
          _ ≤ pairSize v * j := Nat.mul_le_mul_left _ hy'
      have hlen : (slice data (0 + pairSize v * y) (pairSize v)).length =
          pairSize v := by
        rw [slice_length]
        omega
      exact ⟨_, by rw [readPairE, if_pos hlen]⟩
    · have hlen : (slice data (0 + pairSize v * j) (pairSize v)).length ≠
          pairSize v := by
        rw [slice_length]
        omega
      rw [readPairE, if_neg hlen]
  rw [herr]

/-! ## Claim theorems -/

/-- A concrete 5-byte key whose canonical DJB hash is zero. -/
def zeroHashKey : Bytes := [151, 194, 1, 19, 2]

/-- C1, counterexample: the round-trip property fails as stated.  The
non-empty key `zeroHashKey` has canonical hash 0; after `put(k, v)` and
`finalize`, `gets(k)` on the resulting database yields the empty sequence
instead of `[v]`. -/
theorem c1_roundtrip_counterexample :
    buildCDB [(zeroHashKey, [49])] = some (fileOf [(zeroHashKey, [49])]) ∧
    mkReader (fileOf [(zeroHashKey, [49])]) =
      .ok (readerOf [(zeroHashKey, [49])]) ∧
    (readerOf [(zeroHashKey, [49])]).gets zeroHashKey = .ok [] ∧
    (Except.ok [] : Except ReadErr (List Bytes)) ≠ .ok [[49]] := by
  have hz : py_djb_hash zeroHashKey = 0 := by decide
  have hsize : totalSize [(zeroHashKey, [49])] < 4294967296 := by decide
  refine ⟨buildCDB_eq _, mkReader_readerOf _ hsize,
    gets_readerOf_zero _ hsize _ hz, ?_⟩
  intro h
  exact absurd (Except.ok.inj h) (by decide)

/-- C1, amended: the round-trip holds for every finite sequence of `put`
calls with non-empty keys, provided every inserted key has nonzero
canonical hash (keys hashing to 0 are unfindable, see C8) and the file fits
the 32-bit offsets the format packs: `iteritems` returns the insertions in
order, `gets k` returns exactly the values stored under `k` in insertion
order, and `get` of a never-inserted key returns the default. -/
theorem c1_roundtrip (kvs : List (Bytes × Bytes))
    (hne : ∀ kv ∈ kvs, kv.1 ≠ [])
    (hnz : ∀ kv ∈ kvs, py_djb_hash kv.1 ≠ 0)
    (hsize : totalSize kvs < 4294967296) :
    buildCDB kvs = some (fileOf kvs) ∧
    mkReader (fileOf kvs) = .ok (readerOf kvs) ∧
    (readerOf kvs).iteritems = .ok kvs ∧
    (∀ k, k ∈ kvs.map Prod.fst →
      (readerOf kvs).gets k =
        .ok (kvs.filterMap (fun kv => if kv.1 = k then some kv.2 else none))) ∧
    (∀ k d, k ∉ kvs.map Prod.fst → (readerOf kvs).get k d = .ok d) := by
  refine ⟨buildCDB_eq _, mkReader_readerOf _ hsize,
    iteritems_readerOf _ hsize, ?_, ?_⟩
  · intro k hk
    obtain ⟨kv, hkv, hk1⟩ := List.mem_map.mp hk
    exact gets_readerOf kvs hsize hnz k (Or.inl (hk1 ▸ hnz kv hkv))
  · intro k d hk
    have habs : ∀ kv ∈ kvs, kv.1 ≠ k := by
      intro kv hkv he
      exact hk (List.mem_map.mpr ⟨kv, hkv, he⟩)
    have hgets := gets_readerOf kvs hsize hnz k (Or.inr habs)
    have hnil : kvs.filterMap (fun kv => if kv.1 = k then some kv.2 else none) =
        [] := by
      rw [List.filterMap_eq_nil_iff]
      intro kv hkv
      rw [if_neg (habs kv hkv)]
    rw [hnil] at hgets
    have := get_readerOf_eq kvs k d [] hgets
    simpa using this

/-- C1, witness: the amended round-trip at the one-record database
`"k" ↦ "v"`. -/
theorem c1_roundtrip_witness :
    buildCDB [([107], [118])] = some (fileOf [([107], [118])]) ∧
    (readerOf [([107], [118])]).iteritems = .ok [([107], [118])] ∧
    (readerOf [([107], [118])]).gets [107] = .ok [[118]] ∧
    (readerOf [([107], [118])]).get [9] none = .ok none := by
  obtain ⟨h1, h2, h3, h4, h5⟩ := c1_roundtrip [([107], [118])]
    (by decide) (by decide) (by decide)
  refine ⟨h1, h3, ?_, h5 [9] none (by decide)⟩
  have h := h4 [107] (by decide)
  rw [show ([([107], [118])].filterMap
      (fun kv => if kv.1 = [107] then some kv.2 else none)) = [[118]]
    from by decide] at h
  exact h

/-- C2, counterexample: the spec's stated test vector `hash("a") = 177670`
is false on the code; the implemented XOR-variant DJB hash gives 177604. -/
theorem c2_hash_counterexample :
    py_djb_hash [97] = 177604 ∧ ¬ (py_djb_hash [97] = 177670) := by decide

/-- C2, amended: the actual values of the default hash on the four stated
inputs `""`, `"a"`, `"abc"`, `"dicttest"`.  Only the empty-string vector of
the claim is correct; the code implements `h = ((h << 5) + h) ^ c`, not the
additive djb2 variant the other vectors came from. -/
theorem c2_hash_vectors :
    py_djb_hash [] = 5381 ∧
    py_djb_hash [97] = 177604 ∧
    py_djb_hash [97, 98, 99] = 193409669 ∧
    py_djb_hash [100, 105, 99, 116, 116, 101, 115, 116] = 1982212809 := by
  decide

/-- C3, counterexample: on a 2048-byte sequence the 64-bit reader fails
with `struct.error` from unpacking a short slice — not with the explicit
invalid-input (`CDB too small`) check, which the claim requires for every
length below `256 · 16 = 4096`. -/
theorem c3_counterexample :
    mkReader64 (List.replicate 2048 0) = .error .structError ∧
    (Except.error ReadErr.structError : Except ReadErr Reader) ≠
      .error .cdbTooSmall := by
  constructor
  · apply mkReaderAux_structError .v64 _ _
      (by rw [List.length_replicate]; omega) 128 (by norm_num)
    · rw [List.length_replicate]
      norm_num [pairSize]
    · rw [List.length_replicate]
      norm_num [pairSize]
  · intro h
    exact absurd (Except.error.inj h) (by decide)

/-- C3, amended: the explicit invalid-input check is the literal `2048` in
both width variants (`Reader64` inherits it).  The 32-bit reader errors iff
the length is below 2048; the 64-bit reader errors iff the length is below
4096, but for lengths in `[2048, 4096)` the failure is an unpack error on a
short index slice, and its explicit `CDB too small` error occurs exactly
below 2048. -/
theorem c3_length_check :
    (∀ data : Bytes, (∃ e, mkReader data = .error e) ↔ data.length < 2048) ∧
    (∀ data : Bytes, (∃ e, mkReader64 data = .error e) ↔ data.length < 4096) ∧
    (∀ data : Bytes, mkReader64 data = .error .cdbTooSmall ↔
      data.length < 2048) := by
  refine ⟨?_, ?_, ?_⟩
  · intro data
    constructor
    · rintro ⟨e, he⟩
      by_contra hge
      obtain ⟨r, hr⟩ := mkReaderAux_ok_of_le .v32 data py_djb_hash
        (by simp [pairSize]; omega)
      rw [mkReader, hr] at he
      cases he
    · intro hlt
      exact ⟨.cdbTooSmall, mkReaderAux_small _ _ _ hlt⟩
  · intro data
    constructor
    · rintro ⟨e, he⟩
      by_contra hge
      obtain ⟨r, hr⟩ := mkReaderAux_ok_of_le .v64 data py_djb_hash
        (by simp [pairSize]; omega)
      rw [mkReader64, hr] at he
      cases he
    · intro hlt
      by_cases h2 : data.length < 2048
      · exact ⟨.cdbTooSmall, mkReaderAux_small _ _ _ h2⟩
      · refine ⟨.structError, mkReaderAux_structError .v64 data py_djb_hash h2
          (data.length / 16) (by omega) ?_ ?_⟩
        · show pairSize .v64 * (data.length / 16) ≤ data.length
          simp [pairSize]
          omega
        · show data.length < pairSize .v64 * (data.length / 16) + pairSize .v64
          simp [pairSize]
          omega
  · intro data
    constructor
    · intro he
      by_contra hge
      by_cases h4 : data.length < 4096
      · have hse := mkReaderAux_structError .v64 data py_djb_hash hge
          (data.length / 16) (by omega)
          (by simp [pairSize]; omega) (by simp [pairSize]; omega)
        rw [mkReader64, hse] at he
        exact absurd (Except.error.inj he) (by decide)
      · obtain ⟨r, hr⟩ := mkReaderAux_ok_of_le .v64 data py_djb_hash
          (by simp [pairSize]; omega)
        rw [mkReader64, hr] at he
        cases he
    · intro hlt
      exact mkReaderAux_small _ _ _ hlt

/-- C4, counterexample: finalizing a database with no records writes the
index entry `(2048, 0)` — the sink offset at the time, not `(0, 0)` — for
the (empty) bucket 0. -/
theorem c4_counterexample :
    (finalizeCore (fun _ => []) (List.replicate 2048 0)).1.getD 0 (0, 0) =
      (2048, 0) ∧
    ((2048, 0) : Nat × Nat) ≠ (0, 0) := by
  constructor
  · rw [finalizeCore, foldl_finalizeStep, List.nil_append,
        indexFor_getD _ _ _ 0 (by simp)]
    simp
  · decide

/-- C4, amended: the index entry `finalize` writes for a bucket with no
records has slot count `0`, but its offset component is the sink position
at which the (empty) table would start — `data.length` plus the sizes of
the preceding buckets' tables — which is at least 2048, never 0. -/
theorem c4_empty_bucket (bk : Nat → List (Nat × Nat)) (d : Bytes) (i : Nat)
    (hi : i < 256) (hempty : bk i = []) :
    (finalizeCore bk d).1.getD i (0, 0) =
      (d.length + 16 * (((List.range i).map (fun j => (bk j).length)).sum),
       0) := by
  rw [finalizeCore, foldl_finalizeStep, List.nil_append,
      indexFor_getD _ _ _ i (by simpa using hi)]
  rw [List.take_range, Nat.min_eq_left (le_of_lt hi)]
  rw [List.getD_eq_getElem _ _ (by simpa using hi), List.getElem_range,
      hempty]
  simp

/-- C4, witness: the amended statement at bucket 3 over a 3-byte sink —
the empty bucket's entry carries the sink length, not 0. -/
theorem c4_empty_bucket_witness :
    (finalizeCore (fun _ => []) [7, 7, 7]).1.getD 3 (0, 0) = (3, 0) := by
  have h := c4_empty_bucket (fun _ => []) [7, 7, 7] 3 (by norm_num) rfl
  simpa using h

/-- C5: after any sequence of `put` calls and one `finalize`, the reader
over the resulting bytes reports `len` equal to the number of `put` calls
(the index slot counts, halved, sum to the record count). -/
theorem c5_length (kvs : List (Bytes × Bytes))
    (hsize : totalSize kvs < 4294967296) :
    buildCDB kvs = some (fileOf kvs) ∧
    mkReader (fileOf kvs) = .ok (readerOf kvs) ∧
    (readerOf kvs).length = kvs.length :=
  ⟨buildCDB_eq kvs, mkReader_readerOf kvs hsize, rfl⟩

/-- C5, witness: two `put` calls (a duplicate key) give `len = 2`. -/
theorem c5_length_witness :
    buildCDB [([107], [118]), ([107], [119])] =
      some (fileOf [([107], [118]), ([107], [119])]) ∧
    mkReader (fileOf [([107], [118]), ([107], [119])]) =
      .ok (readerOf [([107], [118]), ([107], [119])]) ∧
    (readerOf [([107], [118]), ([107], [119])]).length = 2 := by
  obtain ⟨h1, h2, h3⟩ := c5_length [([107], [118]), ([107], [119])] (by decide)
  exact ⟨h1, h2, h3⟩

/-- C6: the slot table `finalize` builds for a bucket has exactly twice as
many slots as the bucket has records, and at least half of the slots are
the empty pair `(0, 0)`. -/
theorem c6_load_factor (tbl : List (Nat × Nat)) :
    (placeAll tbl).length = 2 * tbl.length ∧
    tbl.length ≤ (placeAll tbl).countP (fun s => decide (s = (0, 0))) := by
  constructor
  · rw [placeAll_length]
    ring
  · have h1 := foldl_placeRecord_countP (fun s => decide (s = (0, 0))) tbl
      (List.replicate (tbl.length * 2) (0, 0))
    rw [countP_replicate_empty] at h1
    rw [placeAll]
    omega

/-- C7: a second `finalize` on a writer whose first `finalize` completed
fails (the sink reference was released). -/
theorem c7_double_finalize (w w' : Writer) (out : Bytes)
    (h : w.finalize = some (out, w')) : w'.finalize = none := by
  rw [finalize_snd w out w' h]
  rfl

/-- C7, witness: finalizing a fresh writer succeeds once and the second
`finalize` fails. -/
theorem c7_double_finalize_witness :
    ({ fp := none, hashfn := py_djb_hash,
       unordered := fun _ => [] } : Writer).finalize = none :=
  c7_double_finalize Writer.init
    { fp := none, hashfn := py_djb_hash, unordered := fun _ => [] }
    (fileOf []) finalize_init_eq

/-- C8: a key whose canonical 32-bit hash is literally 0 is unfindable:
after inserting it and finalizing, `gets` over the resulting bytes yields
the empty sequence, because the probe loop treats a slot hash of 0 as the
empty-slot terminator. -/
theorem c8_zero_hash (kvs : List (Bytes × Bytes)) (k v : Bytes)
    (hmem : (k, v) ∈ kvs) (hz : py_djb_hash k = 0)
    (hsize : totalSize kvs < 4294967296) :
    buildCDB kvs = some (fileOf kvs) ∧
    mkReader (fileOf kvs) = .ok (readerOf kvs) ∧
    (readerOf kvs).gets k = .ok [] :=
  ⟨buildCDB_eq kvs, mkReader_readerOf kvs hsize,
    gets_readerOf_zero kvs hsize k hz⟩

/-- C8, witness: the zero-hash key inserted beside an ordinary record. -/
theorem c8_zero_hash_witness :
    buildCDB [([107], [118]), (zeroHashKey, [55])] =
      some (fileOf [([107], [118]), (zeroHashKey, [55])]) ∧
    mkReader (fileOf [([107], [118]), (zeroHashKey, [55])]) =
      .ok (readerOf [([107], [118]), (zeroHashKey, [55])]) ∧
    (readerOf [([107], [118]), (zeroHashKey, [55])]).gets zeroHashKey =
      .ok [] :=
  c8_zero_hash [([107], [118]), (zeroHashKey, [55])] zeroHashKey [55]
    (by decide) (by decide) (by decide)

/-- C9, counterexample: the get-consequence of the claim fails for a key
whose canonical hash is 0.  `put(k)` does store `(k, "")` — it is the same
call as `put(k, "")` — but a subsequent `get(k)` on the finished database
returns the absent default `none`, not the empty byte string: the probe
loop terminates on the stored slot hash 0. -/
theorem c9_counterexample :
    Writer.init.put zeroHashKey = Writer.init.put zeroHashKey [] ∧
    buildCDB [(zeroHashKey, [])] = some (fileOf [(zeroHashKey, [])]) ∧
    (readerOf [(zeroHashKey, [])]).get zeroHashKey none = .ok none ∧
    (Except.ok (none : Option Bytes) : Except ReadErr (Option Bytes)) ≠
      .ok (some []) := by
  have hz : py_djb_hash zeroHashKey = 0 := by decide
  have hsize : totalSize [(zeroHashKey, [])] < 4294967296 := by decide
  have hgets := gets_readerOf_zero [(zeroHashKey, [])] hsize zeroHashKey hz
  have hget := get_readerOf_eq [(zeroHashKey, [])] zeroHashKey none [] hgets
  refine ⟨rfl, buildCDB_eq _, ?_, ?_⟩
  · simpa using hget
  · intro h
    exact Option.noConfusion (Except.ok.inj h)

/-- C9, amended: `put`'s value argument defaults to the empty byte string —
`put(k)` is the identical call to `put(k, "")` for every writer state and
key — and for a key with nonzero canonical hash, a subsequent `get(k)` on
the finished database returns the empty byte string rather than the absent
default.  (For zero-hash keys the stored record is unfindable and `get`
returns the default, see the counterexample and C8.) -/
theorem c9_default_value (w : Writer) (k : Bytes) :
    w.put k = w.put k [] ∧
    (py_djb_hash k ≠ 0 → totalSize [(k, [])] < 4294967296 →
      buildCDB [(k, [])] = some (fileOf [(k, [])]) ∧
      (readerOf [(k, [])]).get k none = .ok (some [])) := by
  refine ⟨rfl, fun hnz hsize => ⟨buildCDB_eq _, ?_⟩⟩
  have hgets := gets_readerOf [(k, [])] hsize
    (by
      intro kv hkv
      rcases List.mem_cons.mp hkv with rfl | hfalse
      · exact hnz
      · cases hfalse)
    k (Or.inl hnz)
  have hfm : List.filterMap (fun kv => if kv.1 = k then some kv.2 else none)
      ([(k, [])] : List (Bytes × Bytes)) = [[]] := by
    simp
  rw [hfm] at hgets
  have := get_readerOf_eq [(k, [])] k none [[]] hgets
  simpa using this

/-- C9, witness: the amended statement at the nonzero-hash key `"k"` —
`put("k")` then `get("k")` returns the empty byte string. -/
theorem c9_default_value_witness :
    Writer.init.put [107] = Writer.init.put [107] [] ∧
    buildCDB [([107], [])] = some (fileOf [([107], [])]) ∧
    (readerOf [([107], [])]).get [107] none = .ok (some []) := by
  obtain ⟨h1, h2⟩ := c9_default_value Writer.init [107]
  exact ⟨h1, (h2 (by decide) (by decide)).1, (h2 (by decide) (by decide)).2⟩

/-- C10: `put` asserts both arguments are byte strings before writing
anything — a non-byte-string argument fails the assertion with the sink
untouched, and on byte-string arguments the assertion never fires. -/
theorem c10_put_assert (w : Writer) (key value : PyObj) :
    (¬ (key.isStr = true ∧ value.isStr = true) →
      w.putObj key value = .error .assertionError) ∧
    (key.isStr = true → value.isStr = true →
      w.putObj key value ≠ .error .assertionError) := by
  constructor
  · intro hno
    cases key with
    | pystr k =>
      cases value with
      | pystr v => exact absurd ⟨rfl, rfl⟩ hno
      | pyint n => rfl
      | pynone => rfl
    | pyint n => cases value <;> rfl
    | pynone => cases value <;> rfl
  · intro hk hv
    cases key with
    | pystr k =>
      cases value with
      | pystr v =>
        show (match w.put k v with
          | some w2 => (Except.ok w2 : Except PutErr Writer)
          | none => Except.error PutErr.attributeError) ≠ _
        cases w.put k v with
        | some w2 => intro h; cases h
        | none =>
          intro h
          exact absurd (Except.error.inj h) (by decide)
      | pyint n => cases hv
      | pynone => cases hv
    | pyint n => cases hk
    | pynone => cases hk

/-- C10, witness: an integer key fails the assertion; byte-string
arguments do not. -/
theorem c10_put_assert_witness :
    Writer.init.putObj (.pyint 5) (.pystr []) = .error .assertionError ∧
    Writer.init.putObj (.pystr [107]) (.pystr []) ≠ .error .assertionError :=
  ⟨(c10_put_assert Writer.init (.pyint 5) (.pystr [])).1 (by simp [PyObj.isStr]),
   (c10_put_assert Writer.init (.pystr [107]) (.pystr [])).2 rfl rfl⟩

end Cdblib
